import Mathlib

/-!
# Weryfikacja rdzenia analizy tekstur (TXM)

Płytkie zanurzenie kodu z `src/core/texture_processor.py`,
`src/core/texture_worker.py` oraz `src/core/texture_runner.py`.

Konwencje zanurzenia:

* Identyfikatory są transliteracją nazw źródłowych (Lean nie dopuszcza
  polskich znaków diakrytycznych w nazwach); zawartość napisów (flagi,
  nazwy etapów, komunikaty) pozostaje w oryginalnej polskiej pisowni,
  z tym że apostrofy w komunikatach pominięto.
* Znaczniki czasu `data_utworzenia` / `data_modyfikacji` są w źródle
  napisami w stałym formacie "%Y-%m-%d %H:%M:%S", tworzonymi przez
  `strftime` i porównywanymi po `strptime`; ponieważ ten format jest
  różnowartościowy i monotoniczny, zanurzenie przechowuje bezpośrednio
  sparsowaną wartość jako `Nat`.
* Pula wątków: `executor.map` zwraca wyniki w kolejności argumentów,
  a `as_completed` w etapie metadanych graficznych zapisuje wyniki pod
  rozłącznymi indeksami i zwiększa przemienne liczniki, więc etapy są
  modelowane sekwencyjnie, wiernie co do wyniku.
* Operacje zewnętrzne (system plików, sha256, PIL, oiiotool) są
  parametrami-wyroczniami: `stat`, `hasher`, `backend`.
* Grupowanie po słowniku Pythona (wstawianie do kubełków w kolejności
  napotkania) jest modelowane jako lista kluczy w kolejności pierwszego
  wystąpienia wraz z filtrem elementów o danym kluczu — to dokładnie
  zawartość i kolejność słownika budowanego pętlą `append`.
* Wartości zmiennoprzecinkowe (`postęp`, `rozmiar_mb`) są modelowane
  w `ℚ`; rdzeń nie wykonuje na `rozmiar_mb` żadnej arytmetyki
  (zaokrąglenie wykonuje wyrocznia `stat`).
-/

namespace TXM

/-! ## Pomocnicze operacje na listach (model pętli i słowników Pythona) -/

variable {α : Type} {β : Type} {κ : Type}

/-- Model `enumerate(xs, n)` z Pythona. -/
def zIndeksamiOd (n : Nat) : List α → List (Nat × α)
  | [] => []
  | x :: xs => (n, x) :: zIndeksamiOd (n + 1) xs

/-- Model `enumerate(xs)` z Pythona. -/
def zIndeksami (l : List α) : List (Nat × α) := zIndeksamiOd 0 l

/-- Klucze w kolejności pierwszego wystąpienia — kolejność kluczy słownika
Pythona budowanego przez dopisywanie do kubełków. -/
def kluczeKolejno [DecidableEq κ] (klucz : α → κ) (xs : List α) : List κ :=
  xs.foldl (fun acc x => if klucz x ∈ acc then acc else acc ++ [klucz x]) []

/-- Grupowanie listy po kluczu: słownik Pythona `d[k].append(x)` ma klucze
w kolejności pierwszego wystąpienia, a kubełek klucza `k` zawiera dokładnie
elementy o kluczu `k` w kolejności wejściowej. -/
def groupByKey [DecidableEq κ] (klucz : α → κ) (xs : List α) : List (κ × List α) :=
  (kluczeKolejno klucz xs).map (fun k => (k, xs.filter (fun x => decide (klucz x = k))))

/-- Model przypisania `xs[i] = f(xs[i])` (mutacja rekordu pod indeksem). -/
def modifyAt (f : α → α) : Nat → List α → List α
  | _, [] => []
  | 0, x :: xs => f x :: xs
  | n + 1, x :: xs => x :: modifyAt f n xs

/-- Wstawianie stabilne: nowy element trafia przed pierwszy element
o kluczu niemniejszym. -/
def wstawWg (klucz : α → Nat) (x : α) : List α → List α
  | [] => [x]
  | y :: ys => if klucz x ≤ klucz y then x :: y :: ys else y :: wstawWg klucz x ys

/-- Stabilne sortowanie rosnąco po kluczu — model `list.sort(key=...)`
Pythona (Timsort jest stabilny). -/
def sortujWg (klucz : α → Nat) : List α → List α
  | [] => []
  | x :: xs => wstawWg klucz x (sortujWg klucz xs)

/-! ## Zapis dziesiętny (model `str(n)` i `f"{n:02d}"`) -/

/-- Cyfra dziesiętna jako znak. -/
def cyfra : Nat → Char
  | 0 => '0' | 1 => '1' | 2 => '2' | 3 => '3' | 4 => '4'
  | 5 => '5' | 6 => '6' | 7 => '7' | 8 => '8' | _ => '9'

/-- Cyfry dziesiętne liczby (z paliwem, by rekursja była strukturalna). -/
def cyfryAux : Nat → Nat → List Char
  | 0, _ => []
  | paliwo + 1, n =>
    if n < 10 then [cyfra n] else cyfryAux paliwo (n / 10) ++ [cyfra (n % 10)]

/-- Cyfry dziesiętne liczby. -/
def cyfry (n : Nat) : List Char := cyfryAux (n + 1) n

/-- Model `str(n)` dla liczby naturalnej. -/
def napisLiczby (n : Nat) : String := String.mk (cyfry n)

/-- Znakowa postać `f"{n:02d}"`: dopełnienie zerem do co najmniej dwóch cyfr. -/
def pad2Znaki (n : Nat) : List Char := if n < 10 then '0' :: cyfry n else cyfry n

/-- Model `f"{n:02d}"` — identyfikator liczbowy grupy duplikatów. -/
def pad2 (n : Nat) : String := String.mk (pad2Znaki n)

/-! ## Ścieżki i rozszerzenia (model `os.path.basename` / `os.path.splitext`)

Operacje napisowe są zdefiniowane strukturalnie na listach znaków
(biblioteczne `String.toLower`/`String.splitOn` nie redukują się w jądrze). -/

/-- Znaki po ostatnim separatorze ścieżki — `os.path.basename`
(Windows dzieli i po `/`, i po `\`). -/
def znakiPodstawy (cs : List Char) : List Char :=
  cs.foldl (fun acc c => if c = '/' ∨ c = '\\' then [] else acc ++ [c]) []

/-- Rdzeń nazwy pliku (część przed rozszerzeniem) — `os.path.splitext(...)[0]`
na nazwie bazowej: rozszerzenie zaczyna się od ostatniej kropki, przy czym
kropki wiodące nazwy nie liczą się jako początek rozszerzenia. -/
def rdzenZnaki (cs : List Char) : List Char :=
  let wiodace := (cs.takeWhile (fun c => c == '.')).length
  if (cs.drop wiodace).contains '.' then
    let ogon := ((cs.drop wiodace).reverse.takeWhile (fun c => c != '.')).length
    cs.take (cs.length - ogon - 1)
  else cs

/-- Mała litera ASCII — `str.lower` zawężony do alfabetu rozszerzeń. -/
def malaLitera : Char → Char
  | 'A' => 'a' | 'B' => 'b' | 'C' => 'c' | 'D' => 'd' | 'E' => 'e'
  | 'F' => 'f' | 'G' => 'g' | 'H' => 'h' | 'I' => 'i' | 'J' => 'j'
  | 'K' => 'k' | 'L' => 'l' | 'M' => 'm' | 'N' => 'n' | 'O' => 'o'
  | 'P' => 'p' | 'Q' => 'q' | 'R' => 'r' | 'S' => 's' | 'T' => 't'
  | 'U' => 'u' | 'V' => 'v' | 'W' => 'w' | 'X' => 'x' | 'Y' => 'y'
  | 'Z' => 'z' | c => c

/-- Model `s.lower()` (ASCII). -/
def maleLitery (s : String) : String := String.mk (s.toList.map malaLitera)

/-- Model `os.path.basename(p)`. -/
def nazwaBazowa (sciezka : String) : String := String.mk (znakiPodstawy sciezka.toList)

/-- Model `os.path.splitext(p)[1]` — rozszerzenie z wiodącą kropką. -/
def rozszerzeniePliku (sciezka : String) : String :=
  let naz := znakiPodstawy sciezka.toList
  String.mk (naz.drop (rdzenZnaki naz).length)

/-- Model `os.path.splitext(os.path.basename(p))[0]` — klucz grupowania
w przebiegu duplikatów po nazwie. -/
def rdzenNazwyPliku (sciezka : String) : String :=
  String.mk (rdzenZnaki (znakiPodstawy sciezka.toList))

/-- `GRAFICZNE_ROZSZERZENIA` z `texture_processor.py`. -/
def GRAFICZNE_ROZSZERZENIA : List String :=
  [".jpg", ".jpeg", ".png", ".gif", ".bmp", ".tiff", ".tif", ".webp", ".svg",
   ".exr", ".hdr", ".tx", ".tga", ".psd", ".heic", ".heif", ".dds", ".ico",
   ".raw", ".cr2", ".nef"]

/-- `FORMATY_OIIOTOOL` z `texture_processor.py`. -/
def FORMATY_OIIOTOOL : List String := [".exr", ".hdr", ".tx"]

/-- `przetwórz_plik` (wnętrze `_znajdź_i_posortuj_pliki`, wiersze 350–358):
kubełek pliku to jego małe rozszerzenie, o ile graficzne, inaczej "pozostałe". -/
def kategoriaPliku (sciezka : String) : String :=
  let rozszerzenie := maleLitery (rozszerzeniePliku sciezka)
  if rozszerzenie ∈ GRAFICZNE_ROZSZERZENIA then rozszerzenie else "pozostałe"

/-! ## Model danych -/

/-- `StatusPostępu` — zdarzenie postępu raportowane przez `_raportuj_status`. -/
structure StatusPostepu where
  etap : String
  postep : ℚ
  wiadomosc : String := ""
  szczegoly : List (String × Nat) := []
deriving DecidableEq

/-- `MetadanePliku` — centralny rekord pliku. -/
structure MetadanePliku where
  sciezka : String
  rozszerzenie : String
  rozmiar_mb : ℚ
  data_utworzenia : Nat
  data_modyfikacji : Nat
  hash_sha256 : String
  szerokosc : Option Nat := none
  wysokosc : Option Nat := none
  kanal_alpha : Option Bool := none
  glebia_bitowa : Option Nat := none
  profil_koloru : Option String := none
  flaga : String := ""
  id_grupy : String := ""
  narzedzie_analizy : String := ""
  blad_analizy : String := ""
  nazwa : String := ""
deriving DecidableEq

/-- Wynik `os.stat` przetworzony tak jak w `utwórz_metadane_pliku`
(rozmiar w MB po zaokrągleniu, sparsowane znaczniki czasu). -/
structure StatInfo where
  rozmiar_mb : ℚ
  data_utworzenia : Nat
  data_modyfikacji : Nat
deriving DecidableEq

/-- Metadane graficzne zwracane przez backend (PIL lub oiiotool). -/
structure GrafMeta where
  szerokosc : Nat
  wysokosc : Nat
  kanal_alpha : Bool
  glebia_bitowa : Option Nat
  profil_koloru : String
deriving DecidableEq

/-- Wynik `_pobierz_metadane_graficzne_pliku` bez indeksu:
(metadane | None, narzędzie, błąd). -/
structure AnalizaWynik where
  metadane : Option GrafMeta
  narzedzie : String
  blad : String
deriving DecidableEq

/-- `stats_narzędzia` z `_pobierz_metadane_graficzne` (wiersze 655–662).
Słownik ma klucze "oiiotool", "PIL", "brak", "błąd" oraz zagnieżdżony
"formaty_oiiotool" z polami "poprawnie"/"niepoprawnie". -/
structure StatsNarzedzia where
  oiiotool : Nat := 0
  PIL : Nat := 0
  brak : Nat := 0
  blad : Nat := 0
  formaty_oiiotool_poprawnie : Nat := 0
  formaty_oiiotool_niepoprawnie : Nat := 0
deriving DecidableEq

/-- Statystyki z `_generuj_statystyki`. -/
structure Statystyki where
  liczba_plikow_ogolem : Nat
  liczba_plikow_graficznych : Nat
  liczba_pozostalych_plikow : Nat
  liczba_oryginalow : Nat
  liczba_duplikatow : Nat
  liczba_mozliwych_duplikatow : Nat
  liczba_grup_duplikatow : Nat
  rozszerzenia : List (String × Nat)
  narzedzia_analizy : StatsNarzedzia
  liczba_plikow_specjalistycznych : Nat
  rozszerzenia_z_bledami : List (String × Nat)
deriving DecidableEq

/-- Sekcja `konfiguracja` wyników `przetwarzaj_folder`. -/
structure Konfiguracja where
  oiiotool_dostepny : Bool
  sciezka_oiiotool : String
  formaty_specjalistyczne : List String
deriving DecidableEq

/-- Słownik wyników `przetwarzaj_folder`. -/
structure WynikiPrzetwarzania where
  pliki_wedlug_rozszerzen : List (String × Nat)
  pliki : List MetadanePliku
  statystyki : Statystyki
  konfiguracja : Konfiguracja
deriving DecidableEq

/-! ## Etap 1: wyszukiwanie i sortowanie plików -/

/-- `_znajdź_i_posortuj_pliki` (wiersze 333–396): kubełkowanie odkrytych
ścieżek po kategorii. `executor.map` zwraca wyniki w kolejności argumentów,
więc kubełki powstają w kolejności odkrycia. Parametr `pliki_odkryte` to
`pliki_do_przetworzenia` (wynik `os.walk`/`os.listdir`). -/
def znajdz_i_posortuj_pliki (pliki_odkryte : List String) : List (String × List String) :=
  groupByKey kategoriaPliku pliki_odkryte

/-! ## Etap 2: podstawowe metadane -/

/-- Spłaszczenie kubełków do `wszystkie_pliki` (wiersze 410–415):
pary (ścieżka, rozszerzenie) w kolejności kubełków. -/
def wszystkiePliki (pliki_wedlug_rozszerzen : List (String × List String)) :
    List (String × String) :=
  pliki_wedlug_rozszerzen.flatMap (fun p => p.2.map (fun sciezka => (sciezka, p.1)))

/-- Konstruktor `MetadanePliku(...)` wraz z `__post_init__`
(pole `nazwa` = nazwa bazowa ścieżki). -/
def mkMetadane (sciezka rozszerzenie : String) (s : StatInfo) : MetadanePliku :=
  { sciezka := sciezka
    rozszerzenie := rozszerzenie
    rozmiar_mb := s.rozmiar_mb
    data_utworzenia := s.data_utworzenia
    data_modyfikacji := s.data_modyfikacji
    hash_sha256 := ""
    nazwa := nazwaBazowa sciezka }

/-- `_utwórz_podstawowe_metadane` (wiersze 398–460): rekord na plik;
nieudany `os.stat` (wyrocznia zwraca `none`) nie tworzy rekordu. -/
def utworz_podstawowe_metadane (stat : String → Option StatInfo)
    (pliki_wedlug_rozszerzen : List (String × List String)) : List MetadanePliku :=
  (wszystkiePliki pliki_wedlug_rozszerzen).filterMap
    (fun q => (stat q.1).map (fun s => mkMetadane q.1 q.2 s))

/-! ## Etap 3: możliwe duplikaty (przebieg po nazwie) -/

/-- Klucz grupowania przebiegu po nazwie (wiersz 478). -/
def kluczNazwy (p : Nat × MetadanePliku) : String := rdzenNazwyPliku p.2.sciezka

/-- Klucz sortowania obu przebiegów duplikatów: sparsowana `data_utworzenia`. -/
def kluczDaty (p : Nat × MetadanePliku) : Nat := p.2.data_utworzenia

/-- Grupy przebiegu po nazwie: `grupy_plików` (wiersze 475–483). -/
def grupy_nazw (ms : List MetadanePliku) : List (List (Nat × MetadanePliku)) :=
  (groupByKey kluczNazwy (zIndeksami ms)).map (fun p => p.2)

/-- Oznaczenie jednej grupy nazw (wiersze 496–509): dla grupy > 1 sortowanie
stabilne po dacie utworzenia, najstarszy dostaje flagę "oryginał",
pozostali "możliwy duplikat" (bez `id_grupy`). -/
def oznacz_grupe_nazw (acc : List MetadanePliku) (grupa : List (Nat × MetadanePliku)) :
    List MetadanePliku :=
  if 1 < grupa.length then
    match sortujWg kluczDaty grupa with
    | [] => acc
    | org :: reszta =>
      reszta.foldl
        (fun a p => modifyAt (fun m => { m with flaga := "możliwy duplikat" }) p.1 a)
        (modifyAt (fun m => { m with flaga := "oryginał" }) org.1 acc)
  else acc

/-- `_oznacz_możliwe_duplikaty` (wiersze 462–519). -/
def oznacz_mozliwe_duplikaty (ms : List MetadanePliku) : List MetadanePliku :=
  (grupy_nazw ms).foldl oznacz_grupe_nazw ms

/-! ## Etap 4: hasze SHA-256 -/

/-- `_oblicz_hashe` (wiersze 521–564): hash po zawartości pliku (wyrocznia
`hasher` po ścieżce; `""` modeluje nieudany odczyt — wiersze 542–546),
zapis po indeksie. -/
def oblicz_hashe (hasher : String → String) (ms : List MetadanePliku) :
    List MetadanePliku :=
  ms.map (fun m => { m with hash_sha256 := hasher m.sciezka })

/-! ## Etap 5: dokładne duplikaty (przebieg po haszu) -/

/-- Klucz kubełka rozszerzeń w przebiegu po haszu (wiersz 583). -/
def kluczRozszerzenia (p : Nat × MetadanePliku) : String := p.2.rozszerzenie

/-- Klucz grupowania po haszu (wiersz 605). -/
def kluczHasza (p : Nat × MetadanePliku) : String := p.2.hash_sha256

/-- Grupy przebiegu po haszu (wiersze 578–607): najpierw kubełki po
`rozszerzenie` (tylko rekordy z niepustym haszem), w każdym kubełku grupy
po wartości hasza, w kolejności napotkania. -/
def grupy_hashy (ms : List MetadanePliku) : List (List (Nat × MetadanePliku)) :=
  ((groupByKey kluczRozszerzenia
      ((zIndeksami ms).filter (fun p => decide (p.2.hash_sha256 ≠ "")))).map
    (fun p => p.2)).flatMap
    (fun pliki => (groupByKey kluczHasza pliki).map (fun p => p.2))

/-- Oznaczenie jednej dokładnej grupy (wiersze 611–631): sortowanie po dacie,
oryginał dostaje `{licznik:02d}-o`, n-ty duplikat `{licznik:02d}-D{n}`. -/
def oznacz_grupe_hash (licznik : Nat) (acc : List MetadanePliku)
    (grupa : List (Nat × MetadanePliku)) : List MetadanePliku :=
  match sortujWg kluczDaty grupa with
  | [] => acc
  | org :: reszta =>
    let id_grupy := pad2 licznik
    (zIndeksami reszta).foldl
      (fun a jp =>
        modifyAt
          (fun m => { m with
            flaga := "duplikat"
            id_grupy := id_grupy ++ "-D" ++ napisLiczby (jp.1 + 1) })
          jp.2.1 a)
      (modifyAt
        (fun m => { m with flaga := "oryginał", id_grupy := id_grupy ++ "-o" })
        org.1 acc)

/-- Krok pętli po grupach haszy: `licznik_grup` rośnie tylko dla grup > 1
i nie jest zerowany między kubełkami rozszerzeń (wiersze 597, 610–631). -/
def krok_dokladnych (st : List MetadanePliku × Nat)
    (grupa : List (Nat × MetadanePliku)) : List MetadanePliku × Nat :=
  if 1 < grupa.length then (oznacz_grupe_hash (st.2 + 1) st.1 grupa, st.2 + 1) else st

/-- `_oznacz_dokładne_duplikaty` (wiersze 566–640). -/
def oznacz_dokladne_duplikaty (ms : List MetadanePliku) : List MetadanePliku :=
  ((grupy_hashy ms).foldl krok_dokladnych (ms, 0)).1

/-! ## Etap 6: metadane graficzne -/

/-- `_pobierz_metadane_graficzne_pliku` (wiersze 695–751): pliki z kubełka
"pozostałe" są pomijane (zwrot `(None, "", "")`), pozostałe analizuje
zewnętrzna strategia oiiotool/PIL (wyrocznia `backend`). -/
def pobierz_metadane_graficzne_pliku (backend : MetadanePliku → AnalizaWynik)
    (m : MetadanePliku) : AnalizaWynik :=
  if m.rozszerzenie = "pozostałe" then ⟨none, "", ""⟩ else backend m

/-- Aktualizacja rekordu po udanej analizie (wiersze 679–682):
`__dict__.update(metadane)` nadpisuje tylko pola graficzne, potem ustawiane
jest `narzędzie_analizy`, a `błąd_analizy` tylko przy niepustym błędzie. -/
def aktualizuj_metadane_graficzne (m : MetadanePliku) (g : GrafMeta)
    (narzedzie blad : String) : MetadanePliku :=
  { m with
    szerokosc := some g.szerokosc
    wysokosc := some g.wysokosc
    kanal_alpha := some g.kanal_alpha
    glebia_bitowa := g.glebia_bitowa
    profil_koloru := some g.profil_koloru
    narzedzie_analizy := narzedzie
    blad_analizy := if blad ≠ "" then blad else m.blad_analizy }

/-- Aktualizacja `stats_narzędzia` (wiersze 681–691). UWAGA — wierny model
błędu w źródle: gałąź sukcesu narzędzia innego niż "oiiotool" wykonuje
`stats_narzędzia["formaty_pil"]["poprawnie"] += 1`, ale słownik nie ma
klucza "formaty_pil"; `KeyError` jest łapany przez `except Exception`
w pętli zbierania wyników, który wykonuje `stats_narzędzia["błąd"] += 1`.
Liczniki "oiiotool", "PIL" i "brak" nie są inkrementowane nigdzie,
a analiza nieudana (`metadane is None`) nie zmienia żadnego licznika. -/
def aktualizuj_stats_narzedzia (st : StatsNarzedzia) (w : AnalizaWynik) :
    StatsNarzedzia :=
  match w.metadane with
  | none => st
  | some _ =>
    if w.blad ≠ "" then { st with blad := st.blad + 1 }
    else if w.narzedzie = "oiiotool" then
      { st with formaty_oiiotool_poprawnie := st.formaty_oiiotool_poprawnie + 1 }
    else { st with blad := st.blad + 1 }

/-- Krok zbierania wyników analizy (wiersze 675–691): przy `metadane`
różnym od `None` rekord jest aktualizowany pod swoim indeksem, potem
aktualizowane są liczniki (z modelowanym `KeyError`, patrz wyżej). -/
def krok_metadanych_graficznych (backend : MetadanePliku → AnalizaWynik)
    (st : List MetadanePliku × StatsNarzedzia) (p : Nat × MetadanePliku) :
    List MetadanePliku × StatsNarzedzia :=
  let w := pobierz_metadane_graficzne_pliku backend p.2
  match w.metadane with
  | none => st
  | some g =>
    (modifyAt (fun m => aktualizuj_metadane_graficzne m g w.narzedzie w.blad) p.1 st.1,
     aktualizuj_stats_narzedzia st.2 w)

/-- `_pobierz_metadane_graficzne` (wiersze 642–693). Zadania są tworzone dla
rekordów sprzed etapu, wyniki wracają przez `as_completed` w dowolnej
kolejności, ale zapis jest po indeksie, a inkrementacje liczników są
przemienne — model sekwencyjny w kolejności indeksów jest wierny. -/
def pobierz_metadane_graficzne (backend : MetadanePliku → AnalizaWynik)
    (ms : List MetadanePliku) : List MetadanePliku × StatsNarzedzia :=
  (zIndeksami ms).foldl (krok_metadanych_graficznych backend) (ms, {})

/-! ## Statystyki i wyniki -/

/-- Prefiks liczbowy `id_grupy` — model `m.id_grupy.split("-")[0]`. -/
def prefiksGrupy (id_grupy : String) : String :=
  String.mk (id_grupy.toList.takeWhile (fun c => c != '-'))

/-- `_generuj_statystyki` (wiersze 1049–1102). -/
def generuj_statystyki (ms : List MetadanePliku) (stats : StatsNarzedzia) :
    Statystyki :=
  { liczba_plikow_ogolem := ms.length
    liczba_plikow_graficznych := ms.countP (fun m => decide (m.rozszerzenie ≠ "pozostałe"))
    liczba_pozostalych_plikow := ms.countP (fun m => decide (m.rozszerzenie = "pozostałe"))
    liczba_oryginalow := ms.countP (fun m => decide (m.flaga = "oryginał"))
    liczba_duplikatow := ms.countP (fun m => decide (m.flaga = "duplikat"))
    liczba_mozliwych_duplikatow := ms.countP (fun m => decide (m.flaga = "możliwy duplikat"))
    liczba_grup_duplikatow :=
      (kluczeKolejno (fun s => s)
        ((ms.filter (fun m => decide (m.id_grupy ≠ ""))).map
          (fun m => prefiksGrupy m.id_grupy))).length
    rozszerzenia :=
      (groupByKey (fun m : MetadanePliku => m.rozszerzenie) ms).map
        (fun p => (p.1, p.2.length))
    narzedzia_analizy := stats
    liczba_plikow_specjalistycznych :=
      ms.countP (fun m => decide (maleLitery m.rozszerzenie ∈ FORMATY_OIIOTOOL))
    rozszerzenia_z_bledami :=
      (groupByKey (fun m : MetadanePliku => m.rozszerzenie)
        (ms.filter (fun m => decide (m.narzedzie_analizy = "błąd")))).map
        (fun p => (p.1, p.2.length)) }

/-! ## Ślad zdarzeń postępu

`_raportuj_status` przekazuje zdarzenie do callbacku i IGNORUJE jego wynik
(wiersze 237–257), więc zdarzenia nie wpływają na przepływ danych i można
je zebrać osobno jako ślad przebiegu. -/

/-- Zdarzenia pętli raportującej co `krok` iteracji oraz w ostatniej
(wzorzec `if i % krok == 0 or i == total - 1`). -/
def zdarzeniaPetli (etap : String) (krok total : Nat) (przesuniecie skala : ℚ)
    (wiadomosc : Nat → String) (szczegoly : Nat → List (String × Nat)) :
    List StatusPostepu :=
  ((List.range total).filter (fun i => (i % krok == 0) || (i == total - 1))).map
    (fun (i : Nat) =>
      { etap := etap
        postep := przesuniecie + skala * (((i : ℚ) + 1) / (total : ℚ))
        wiadomosc := wiadomosc (i + 1)
        szczegoly := szczegoly (i + 1) })

/-- Puste szczegóły zdarzenia. -/
def bezSzczegolow : Nat → List (String × Nat) := fun _ => []

/-! ## Orkiestracja: `przetwarzaj_folder` -/

/-- Wyniki `przetwarzaj_folder` (wiersze 259–331) bez śladu zdarzeń:
sekwencja etapów na pełnych kolekcjach. Wejścia: lista odkrytych ścieżek
w kolejności wyliczenia oraz wyrocznie `stat`, `hasher`, `backend`
i konfiguracja oiiotool. -/
def wyniki_przetwarzania (pliki_odkryte : List String)
    (stat : String → Option StatInfo) (hasher : String → String)
    (backend : MetadanePliku → AnalizaWynik)
    (oiiotool_dostepny : Bool) (sciezka_oiiotool : String) :
    WynikiPrzetwarzania :=
  let pliki_wedlug_rozszerzen := znajdz_i_posortuj_pliki pliki_odkryte
  let graf := pobierz_metadane_graficzne backend
    (oznacz_dokladne_duplikaty
      (oblicz_hashe hasher
        (oznacz_mozliwe_duplikaty
          (utworz_podstawowe_metadane stat pliki_wedlug_rozszerzen))))
  { pliki_wedlug_rozszerzen :=
      pliki_wedlug_rozszerzen.map (fun p => (p.1, p.2.length))
    pliki := graf.1
    statystyki := generuj_statystyki graf.1 graf.2
    konfiguracja :=
      { oiiotool_dostepny := oiiotool_dostepny
        sciezka_oiiotool := if oiiotool_dostepny then sciezka_oiiotool else ""
        formaty_specjalistyczne := FORMATY_OIIOTOOL } }

/-- Ślad zdarzeń postępu `przetwarzaj_folder`: zdarzenia graniczne etapów
oraz zdarzenia pętli raportujących, w kolejności emisji. Ponieważ
`_raportuj_status` ignoruje wynik callbacku, ślad nie wpływa na dane
i daje się wyliczyć obok wyników. -/
def slad_przetwarzania (pliki_odkryte : List String)
    (stat : String → Option StatInfo) (hasher : String → String) :
    List StatusPostepu :=
  let total := pliki_odkryte.length
  let m1 := utworz_podstawowe_metadane stat (znajdz_i_posortuj_pliki pliki_odkryte)
  let m2 := oznacz_mozliwe_duplikaty m1
  let m3 := oblicz_hashe hasher m2
  let liczba_grup_nazw := (grupy_nazw m1).length
  let rozszerzenia_hash :=
    kluczeKolejno kluczRozszerzenia
      ((zIndeksami m3).filter (fun p => decide (p.2.hash_sha256 ≠ "")))
  { etap := "wyszukiwanie", postep := 0,
    wiadomosc := "Rozpoczęcie wyszukiwania plików..." } ::
  (zdarzeniaPetli "wyszukiwanie" 50 total 0 1
      (fun n => "Znaleziono " ++ napisLiczby n ++ " plików...")
      (fun n => [("znalezione", n)]) ++
    ({ etap := "metadane_podstawowe", postep := 0,
       wiadomosc := "Tworzenie podstawowych metadanych..." } ::
      (zdarzeniaPetli "metadane_podstawowe" 50 total 0 1
          (fun n => "Przetworzono podstawowe metadane dla " ++ napisLiczby n ++
            " z " ++ napisLiczby total ++ " plików...") bezSzczegolow ++
        ({ etap := "możliwe_duplikaty", postep := 0,
           wiadomosc := "Wykrywanie możliwych duplikatów na podstawie nazwy..." } ::
          (zdarzeniaPetli "możliwe_duplikaty" 100 m1.length 0 (1 / 2)
              (fun n => "Grupowanie plików według nazwy: " ++ napisLiczby n ++
                " z " ++ napisLiczby m1.length ++ "...") bezSzczegolow ++
            zdarzeniaPetli "możliwe_duplikaty" 50 liczba_grup_nazw (1 / 2) (1 / 2)
              (fun n => "Oznaczanie możliwych duplikatów: " ++ napisLiczby n ++
                " z " ++ napisLiczby liczba_grup_nazw ++ " grup...") bezSzczegolow ++
            ({ etap := "hash", postep := 0,
               wiadomosc := "Obliczanie hashy plików..." } ::
              (zdarzeniaPetli "hash" 20 m2.length 0 1
                  (fun n => "Obliczono hash dla " ++ napisLiczby n ++ " z " ++
                    napisLiczby m2.length ++ " plików...") bezSzczegolow ++
                ({ etap := "dokładne_duplikaty", postep := 0,
                   wiadomosc := "Wykrywanie dokładnych duplikatów..." } ::
                  (zdarzeniaPetli "dokładne_duplikaty" 100 m3.length 0 (3 / 10)
                      (fun n => "Grupowanie plików według rozszerzeń: " ++
                        napisLiczby n ++ " z " ++ napisLiczby m3.length ++ "...")
                      bezSzczegolow ++
                    (zIndeksami rozszerzenia_hash).map (fun p =>
                      { etap := "dokładne_duplikaty"
                        postep := 3 / 10 + 7 / 10 *
                          (((p.1 : ℚ) + 1) / (rozszerzenia_hash.length : ℚ))
                        wiadomosc := "Oznaczanie dokładnych duplikatów dla rozszerzenia " ++
                          p.2 ++ "..." }) ++
                    ({ etap := "metadane_graficzne", postep := 0,
                       wiadomosc := "Pobieranie szczegółowych metadanych graficznych..." } ::
                      [{ etap := "zakończono", postep := 1,
                         wiadomosc := "Przetwarzanie zakończone." }]))))))))))

/-- `przetwarzaj_folder` (wiersze 259–331): słownik wyników wraz ze śladem
zdarzeń postępu. -/
def przetwarzaj_folder (pliki_odkryte : List String)
    (stat : String → Option StatInfo) (hasher : String → String)
    (backend : MetadanePliku → AnalizaWynik)
    (oiiotool_dostepny : Bool) (sciezka_oiiotool : String) :
    WynikiPrzetwarzania × List StatusPostepu :=
  (wyniki_przetwarzania pliki_odkryte stat hasher backend oiiotool_dostepny
      sciezka_oiiotool,
    slad_przetwarzania pliki_odkryte stat hasher)

/-! ## Warstwa biblioteczna i worker -/

/-- `przetwarzaj_folder_tekstur` (wiersze 1176–1221): dla złej ścieżki
rzuca `ValueError` przed jakąkolwiek pracą (model: `Except.error`
z komunikatem wyjątku); inaczej uruchamia procesor. -/
def przetwarzaj_folder_tekstur (isdir : Bool) (sciezka_folderu : String)
    (pliki_odkryte : List String) (stat : String → Option StatInfo)
    (hasher : String → String) (backend : MetadanePliku → AnalizaWynik)
    (oiiotool_dostepny : Bool) (sciezka_oiiotool : String) :
    Except String (WynikiPrzetwarzania × List StatusPostepu) :=
  if isdir = false then
    Except.error
      ("Podana ścieżka " ++ sciezka_folderu ++ " nie jest folderem lub nie istnieje.")
  else
    Except.ok (przetwarzaj_folder pliki_odkryte stat hasher backend
      oiiotool_dostepny sciezka_oiiotool)

/-- Słownik zwracany przez `TextureWorker.przetwarzaj_folder`: przy
anulowaniu `{"sukces": False, "komunikat": ...}` bez rekordów, inaczej
surowe wyniki procesora (bez klucza "sukces"). -/
structure OdpowiedzWorkera where
  sukces : Option Bool
  komunikat : String
  wyniki : Option WynikiPrzetwarzania
deriving DecidableEq

/-- `TextureWorker.przetwarzaj_folder` (`texture_worker.py`, wiersze
92–178): owija callback tak, że zwrócone `False` ustawia zatrzask
`canceled[0]`; procesor NIE odczytuje tego sygnału (wynik callbacku jest
ignorowany w `_raportuj_status`), więc wszystkie etapy wykonują się do
końca; dopiero po powrocie procesora, gdy zatrzask jest ustawiony, worker
odrzuca wyniki i zwraca słownik z `sukces = False`. Wyjątek `ValueError`
złej ścieżki jest przepuszczany dalej (`raise`). -/
def worker_przetwarzaj_folder
    (callback : Option (String → ℚ → String → Bool)) (isdir : Bool)
    (sciezka_folderu : String) (pliki_odkryte : List String)
    (stat : String → Option StatInfo) (hasher : String → String)
    (backend : MetadanePliku → AnalizaWynik)
    (oiiotool_dostepny : Bool) (sciezka_oiiotool : String) :
    Except String OdpowiedzWorkera :=
  match przetwarzaj_folder_tekstur isdir sciezka_folderu pliki_odkryte stat hasher
      backend oiiotool_dostepny sciezka_oiiotool with
  | Except.error e => Except.error e
  | Except.ok (w, slad) =>
    let canceled := slad.any (fun st =>
      match callback with
      | some f => !(f st.etap st.postep st.wiadomosc)
      | none => false)
    if canceled then
      Except.ok ⟨some false, "Operacja anulowana przez użytkownika", none⟩
    else Except.ok ⟨none, "", some w⟩

/-- Wynik `analizuj_folder_tekstur` z `texture_runner.py`. -/
structure WynikAnalizy where
  sukces : Bool
  komunikat : String
  wyniki : Option WynikiPrzetwarzania
deriving DecidableEq

/-- `analizuj_folder_tekstur` (`texture_runner.py`, wiersze 74–188):
nieistniejący folder jest wykrywany przed jakąkolwiek pracą i zwraca
`{"sukces": False, "komunikat": ...}` bez rekordów; w przeciwnym razie
wywoływany jest worker, a po powrocie ustawiane jest `wyniki["sukces"] = True`. -/
def analizuj_folder_tekstur (isdir : Bool) (sciezka_folderu : String)
    (callback : Option (String → ℚ → String → Bool))
    (pliki_odkryte : List String) (stat : String → Option StatInfo)
    (hasher : String → String) (backend : MetadanePliku → AnalizaWynik)
    (oiiotool_dostepny : Bool) (sciezka_oiiotool : String) : WynikAnalizy :=
  if isdir = false then
    ⟨false, "Podany folder nie istnieje: " ++ sciezka_folderu, none⟩
  else
    match worker_przetwarzaj_folder callback isdir sciezka_folderu pliki_odkryte stat
        hasher backend oiiotool_dostepny sciezka_oiiotool with
    | Except.error e => ⟨false, "Błąd podczas przetwarzania: " ++ e, none⟩
    | Except.ok o => ⟨true, o.komunikat, o.wyniki⟩

end TXM

namespace TXM

/-! ## Definicje pomocnicze dowodow i konkretne dane swiadkow -/

/-- Własność rekordu: jeśli `id_grupy` jest niepuste, to `flaga` też. -/
def FlagaZId (m : MetadanePliku) : Prop := m.id_grupy ≠ "" → m.flaga ≠ ""
/-- Wartość cyfry dziesiętnej (dekoder pomocniczy dowodu). -/
def wartoscCyfry (c : Char) : Nat :=
  if c = '1' then 1 else if c = '2' then 2 else if c = '3' then 3
  else if c = '4' then 4 else if c = '5' then 5 else if c = '6' then 6
  else if c = '7' then 7 else if c = '8' then 8 else if c = '9' then 9 else 0
/-- Wartość napisu cyfr (dekoder pomocniczy dowodu). -/
def wartoscZnakow (cs : List Char) : Nat :=
  cs.foldl (fun acc c => acc * 10 + wartoscCyfry c) 0


/-- Wyrocznia `os.stat` stała (rozmiar 1 MB, znaczniki 100/200). -/
def statC : String → Option StatInfo := fun _ => some ⟨1, 100, 200⟩

/-- Backend analizy, który zawsze zawodzi cicho (metadane `None`). -/
def backend0 : MetadanePliku → AnalizaWynik := fun _ => ⟨none, "", ""⟩

/-- Backend analizy: udana analiza biblioteką PIL. -/
def backendPILC : MetadanePliku → AnalizaWynik :=
  fun _ => ⟨some ⟨10, 20, false, some 8, "sRGB"⟩, "PIL", ""⟩

/-- Hasz rozróżniający dwa konkretne pliki. -/
def hasherRozne : String → String := fun s => if s = "/t/a.png" then "h1" else "h2"

/-- Rekord do scenariusza C6: jeden plik .png. -/
def msC6 : List MetadanePliku := [mkMetadane "/t/a.png" ".png" ⟨1, 100, 200⟩]

/-- Dwa rekordy .png o tym samym haszu (świadek grup dokładnych duplikatów). -/
def msW1 : List MetadanePliku :=
  [{ mkMetadane "/t/b.png" ".png" ⟨1, 100, 200⟩ with hash_sha256 := "h1" },
   { mkMetadane "/t/c.png" ".png" ⟨1, 150, 200⟩ with hash_sha256 := "h1" }]

/-- Grupa haszowa obu rekordów `msW1`. -/
def grupaW1 : List (Nat × MetadanePliku) := zIndeksami msW1

/-- Dwa rekordy o tym samym rdzeniu nazwy (świadek przebiegu po nazwie). -/
def msW2 : List MetadanePliku :=
  [mkMetadane "/t/a.png" ".png" ⟨1, 100, 200⟩,
   mkMetadane "/t/a.jpg" ".jpg" ⟨1, 100, 200⟩]

/-- Grupa nazwowa obu rekordów `msW2`. -/
def grupaW2 : List (Nat × MetadanePliku) := zIndeksami msW2

/-- Ścieżki w kolejności odkrycia do kontrprzykładu C2:
`/t/a.jpg` odkryty przed `/t/a.png`. -/
def odkryteK2 : List String := ["/t/b.png", "/t/a.jpg", "/t/a.png"]

/-- Kolekcja wejściowa przebiegu po nazwie dla `odkryteK2` (wyrocznia `statC`
daje wszystkim równe znaczniki czasu): spłaszczenie kubełków rozszerzeń
ustawia `/t/a.png` przed `/t/a.jpg`, odwrotnie niż kolejność odkrycia. -/
def msK2 : List MetadanePliku :=
  utworz_podstawowe_metadane statC (znajdz_i_posortuj_pliki odkryteK2)

/-- Rekordy o różnych rozszerzeniach plikowych, oba w kubełku "pozostałe",
z tym samym haszem (świadek jednorodności grup haszowych). -/
def msW5 : List MetadanePliku :=
  oblicz_hashe (fun _ => "h")
    (utworz_podstawowe_metadane statC
      (znajdz_i_posortuj_pliki ["/t/a.foo", "/t/b.bar"]))

/-- Grupa haszowa obu rekordów `msW5`. -/
def grupaW5 : List (Nat × MetadanePliku) := zIndeksami msW5

/-- Rekordy z pustym haszem i flagami z przebiegu po nazwie (świadek C9). -/
def msW9 : List MetadanePliku :=
  [{ mkMetadane "/t/x.png" ".png" ⟨1, 100, 200⟩ with flaga := "oryginał" },
   { mkMetadane "/t/y.png" ".png" ⟨1, 150, 200⟩ with flaga := "możliwy duplikat" }]

/-- Callback anulujący podczas etapu "wyszukiwanie". -/
def cbW4 : String → ℚ → String → Bool := fun etap _ _ => !(etap == "wyszukiwanie")

/-- Końcowy rekord oryginału z przebiegu `przetwarzaj_folder` na
`["/t/b.png", "/t/c.png"]` ze stałym haszem "h1" (świadek C3). -/
def rW3 : MetadanePliku :=
  { mkMetadane "/t/b.png" ".png" ⟨1, 100, 200⟩ with
    hash_sha256 := "h1", flaga := "oryginał", id_grupy := "01-o" }

end TXM

namespace TXM

/-! ## Lematy o `zIndeksami` -/

theorem zIndeksamiOd_map_snd (n : Nat) (l : List α) :
    (zIndeksamiOd n l).map Prod.snd = l := by
  induction l generalizing n with
  | nil => rfl
  | cons x xs ih => simp [zIndeksamiOd, ih]

theorem mem_zIndeksamiOd {n : Nat} {l : List α} {i : Nat} {a : α}
    (h : (i, a) ∈ zIndeksamiOd n l) : n ≤ i ∧ l.get? (i - n) = some a := by
  induction l generalizing n with
  | nil => simp [zIndeksamiOd] at h
  | cons x xs ih =>
    simp only [zIndeksamiOd, List.mem_cons] at h
    rcases h with h | h
    · obtain ⟨h1, h2⟩ := Prod.mk.injEq .. ▸ h
      subst h1; subst h2
      simp
    · obtain ⟨h1, h2⟩ := ih h
      refine ⟨by omega, ?_⟩
      have : i - n = (i - (n + 1)) + 1 := by omega
      rw [this]
      simpa using h2

theorem get_zIndeksami {l : List α} {i : Nat} {a : α}
    (h : (i, a) ∈ zIndeksami l) : l.get? i = some a := by
  have := mem_zIndeksamiOd h
  simpa using this.2

theorem mem_zIndeksamiOd_of_get {l : List α} {j : Nat} {a : α}
    (h : l.get? j = some a) (n : Nat) : (n + j, a) ∈ zIndeksamiOd n l := by
  induction l generalizing n j with
  | nil => simp at h
  | cons x xs ih =>
    cases j with
    | zero =>
      simp at h
      simp [zIndeksamiOd, h]
    | succ j =>
      simp only [List.get?] at h
      have := ih h (n + 1)
      have harith : n + (j + 1) = (n + 1) + j := by omega
      rw [harith]
      exact List.mem_cons_of_mem _ this

theorem mem_zIndeksami_of_get {l : List α} {j : Nat} {a : α}
    (h : l.get? j = some a) : (j, a) ∈ zIndeksami l := by
  have := mem_zIndeksamiOd_of_get h 0
  simpa [zIndeksami] using this

theorem pairwise_fst_zIndeksamiOd (n : Nat) (l : List α) :
    List.Pairwise (fun p q => p.1 < q.1) (zIndeksamiOd n l) := by
  induction l generalizing n with
  | nil => exact List.Pairwise.nil
  | cons x xs ih =>
    refine List.pairwise_cons.mpr ⟨?_, ih (n + 1)⟩
    intro q hq
    have := (mem_zIndeksamiOd (n := n + 1) (l := xs) (i := q.1) (a := q.2)
      (by simpa using hq)).1
    omega

theorem pairwise_fst_zIndeksami (l : List α) :
    List.Pairwise (fun p q => p.1 < q.1) (zIndeksami l) :=
  pairwise_fst_zIndeksamiOd 0 l

theorem funkcyjnosc_zIndeksami {l : List α} {i : Nat} {a b : α}
    (ha : (i, a) ∈ zIndeksami l) (hb : (i, b) ∈ zIndeksami l) : a = b := by
  have h1 := get_zIndeksami ha
  have h2 := get_zIndeksami hb
  rw [h1] at h2
  exact Option.some.inj h2

/-! ## Lematy o `kluczeKolejno` i `groupByKey` -/

theorem nodup_kluczeKolejno_foldl [DecidableEq κ] (klucz : α → κ) (xs : List α)
    (acc : List κ) (hacc : acc.Nodup) :
    (xs.foldl (fun acc x => if klucz x ∈ acc then acc else acc ++ [klucz x]) acc).Nodup := by
  induction xs generalizing acc with
  | nil => exact hacc
  | cons x xs ih =>
    simp only [List.foldl_cons]
    by_cases h : klucz x ∈ acc
    · simp only [if_pos h]
      exact ih acc hacc
    · simp only [if_neg h]
      refine ih _ ?_
      simpa [List.nodup_append, hacc] using h

theorem mem_kluczeKolejno_foldl [DecidableEq κ] (klucz : α → κ) (xs : List α)
    (acc : List κ) (k : κ) :
    k ∈ xs.foldl (fun acc x => if klucz x ∈ acc then acc else acc ++ [klucz x]) acc ↔
      k ∈ acc ∨ ∃ x ∈ xs, klucz x = k := by
  induction xs generalizing acc with
  | nil => simp
  | cons x xs ih =>
    simp only [List.foldl_cons]
    by_cases h : klucz x ∈ acc
    · rw [if_pos h, ih]
      simp only [List.mem_cons]
      constructor
      · rintro (hk | ⟨y, hy, rfl⟩)
        · exact Or.inl hk
        · exact Or.inr ⟨y, Or.inr hy, rfl⟩
      · rintro (hk | ⟨y, hy | hy, rfl⟩)
        · exact Or.inl hk
        · exact Or.inl (by rw [hy]; exact h)
        · exact Or.inr ⟨y, hy, rfl⟩
    · rw [if_neg h, ih]
      simp only [List.mem_append, List.mem_cons, List.not_mem_nil, or_false]
      constructor
      · rintro ((hk | hk) | ⟨y, hy, rfl⟩)
        · exact Or.inl hk
        · exact Or.inr ⟨x, Or.inl rfl, hk.symm⟩
        · exact Or.inr ⟨y, Or.inr hy, rfl⟩
      · rintro (hk | ⟨y, hy | hy, rfl⟩)
        · exact Or.inl (Or.inl hk)
        · exact Or.inl (Or.inr (by rw [hy]))
        · exact Or.inr ⟨y, hy, rfl⟩

theorem nodup_kluczeKolejno [DecidableEq κ] (klucz : α → κ) (xs : List α) :
    (kluczeKolejno klucz xs).Nodup :=
  nodup_kluczeKolejno_foldl klucz xs [] List.nodup_nil

theorem mem_kluczeKolejno [DecidableEq κ] {klucz : α → κ} {xs : List α} {k : κ} :
    k ∈ kluczeKolejno klucz xs ↔ ∃ x ∈ xs, klucz x = k := by
  rw [kluczeKolejno, mem_kluczeKolejno_foldl]
  simp

theorem mem_grup_groupByKey [DecidableEq κ] {klucz : α → κ} {xs : List α}
    {g : List α} :
    g ∈ (groupByKey klucz xs).map (fun p => p.2) ↔
      ∃ k ∈ kluczeKolejno klucz xs,
        g = xs.filter (fun x => decide (klucz x = k)) := by
  simp only [groupByKey, List.map_map, List.mem_map, Function.comp]
  constructor
  · rintro ⟨k, hk, rfl⟩
    exact ⟨k, hk, rfl⟩
  · rintro ⟨k, hk, rfl⟩
    exact ⟨k, hk, rfl⟩

theorem czlonkowie_grupy [DecidableEq κ] {klucz : α → κ} {xs : List α}
    {g : List α} (hg : g ∈ (groupByKey klucz xs).map (fun p => p.2)) :
    ∃ k, ∀ x ∈ g, x ∈ xs ∧ klucz x = k := by
  obtain ⟨k, _, rfl⟩ := mem_grup_groupByKey.mp hg
  refine ⟨k, fun x hx => ?_⟩
  have := List.mem_filter.mp hx
  exact ⟨this.1, by simpa using this.2⟩

theorem podlista_grupy [DecidableEq κ] {klucz : α → κ} {xs : List α}
    {g : List α} (hg : g ∈ (groupByKey klucz xs).map (fun p => p.2)) :
    List.Sublist g xs := by
  obtain ⟨k, _, rfl⟩ := mem_grup_groupByKey.mp hg
  exact List.filter_sublist xs

/-- Rozłączność indeksów między kubełkami `groupByKey` na liście
indeksowanej: różne klucze mają rozłączne zbiory indeksów. -/
theorem pairwise_rozlaczne_groupByKey {M : Type} [DecidableEq κ]
    (klucz : Nat × M → κ) (xs : List (Nat × M))
    (hfun : ∀ i a b, (i, a) ∈ xs → (i, b) ∈ xs → a = b) :
    List.Pairwise (fun g h => ∀ p ∈ g, ∀ q ∈ h, p.1 ≠ q.1)
      ((groupByKey klucz xs).map (fun p => p.2)) := by
  rw [groupByKey, List.map_map]
  rw [List.pairwise_map]
  have hnd := nodup_kluczeKolejno klucz xs
  refine hnd.imp_of_mem ?_
  intro k k' hk hk' hne
  intro p hp q hq hpq
  have hp' := List.mem_filter.mp hp
  have hq' := List.mem_filter.mp hq
  have hkp : klucz p = k := by simpa using hp'.2
  have hkq : klucz q = k' := by simpa using hq'.2
  have : p.2 = q.2 := by
    have := hfun p.1 p.2 q.2 (by simpa using hp'.1) (by rw [hpq]; simpa using hq'.1)
    exact this
  have : p = q := Prod.ext hpq this
  exact hne (by rw [← hkp, this, hkq])

end TXM

namespace TXM

/-! ## Lematy o `modifyAt` -/

theorem get_modifyAt_self {f : α → α} {l : List α} {i : Nat} {a : α}
    (h : l.get? i = some a) : (modifyAt f i l).get? i = some (f a) := by
  induction l generalizing i with
  | nil => simp at h
  | cons x xs ih =>
    cases i with
    | zero =>
      simp at h
      simp [modifyAt, h]
    | succ i =>
      simp only [List.get?] at h
      simpa [modifyAt] using ih h

theorem get_modifyAt_ne {f : α → α} {l : List α} {i j : Nat} (h : i ≠ j) :
    (modifyAt f i l).get? j = l.get? j := by
  induction l generalizing i j with
  | nil => cases i <;> rfl
  | cons x xs ih =>
    cases i with
    | zero =>
      cases j with
      | zero => exact absurd rfl h
      | succ j => rfl
    | succ i =>
      cases j with
      | zero => rfl
      | succ j =>
        simpa [modifyAt] using ih (fun hc => h (by rw [hc]))

theorem mem_modifyAt {f : α → α} {l : List α} {i : Nat} {a : α}
    (h : a ∈ modifyAt f i l) : a ∈ l ∨ ∃ b ∈ l, a = f b := by
  induction l generalizing i with
  | nil => simp [modifyAt] at h
  | cons x xs ih =>
    cases i with
    | zero =>
      rcases (by simpa [modifyAt] using h : a = f x ∨ a ∈ xs) with h | h
      · exact Or.inr ⟨x, List.mem_cons_self x xs, h⟩
      · exact Or.inl (List.mem_cons_of_mem x h)
    | succ i =>
      rcases (by simpa [modifyAt] using h : a = x ∨ a ∈ modifyAt f i xs) with h | h
      · exact Or.inl (by simp [h])
      · rcases ih h with h | ⟨b, hb, hab⟩
        · exact Or.inl (List.mem_cons_of_mem x h)
        · exact Or.inr ⟨b, List.mem_cons_of_mem x hb, hab⟩

theorem length_modifyAt (f : α → α) (i : Nat) (l : List α) :
    (modifyAt f i l).length = l.length := by
  induction l generalizing i with
  | nil => cases i <;> rfl
  | cons x xs ih =>
    cases i with
    | zero => simp [modifyAt]
    | succ i => simpa [modifyAt] using ih i

/-! ## Lematy o sortowaniu stabilnym -/

theorem perm_wstawWg (klucz : α → Nat) (x : α) (l : List α) :
    List.Perm (wstawWg klucz x l) (x :: l) := by
  induction l with
  | nil => exact List.Perm.refl _
  | cons y ys ih =>
    by_cases h : klucz x ≤ klucz y
    · rw [wstawWg, if_pos h]
    · rw [wstawWg, if_neg h]
      exact ((ih.cons y).trans (List.Perm.swap x y ys)).symm.symm

theorem perm_sortujWg (klucz : α → Nat) (l : List α) :
    List.Perm (sortujWg klucz l) l := by
  induction l with
  | nil => exact List.Perm.refl _
  | cons x xs ih =>
    exact (perm_wstawWg klucz x (sortujWg klucz xs)).trans (ih.cons x)

theorem pairwise_wstawWg (klucz : α → Nat) (x : α) (l : List α)
    (hl : List.Pairwise (fun a b => klucz a ≤ klucz b) l) :
    List.Pairwise (fun a b => klucz a ≤ klucz b) (wstawWg klucz x l) := by
  induction l with
  | nil => simp [wstawWg]
  | cons y ys ih =>
    obtain ⟨hy, hys⟩ := List.pairwise_cons.mp hl
    by_cases h : klucz x ≤ klucz y
    · rw [wstawWg, if_pos h]
      refine List.pairwise_cons.mpr ⟨?_, hl⟩
      intro b hb
      rcases List.mem_cons.mp hb with hb | hb
      · exact hb ▸ h
      · exact le_trans h (hy b hb)
    · rw [wstawWg, if_neg h]
      refine List.pairwise_cons.mpr ⟨?_, ih hys⟩
      intro b hb
      have hb' := (perm_wstawWg klucz x ys).mem_iff.mp hb
      rcases List.mem_cons.mp hb' with hb' | hb'
      · exact hb' ▸ le_of_not_le h
      · exact hy b hb'

theorem pairwise_sortujWg (klucz : α → Nat) (l : List α) :
    List.Pairwise (fun a b => klucz a ≤ klucz b) (sortujWg klucz l) := by
  induction l with
  | nil => exact List.Pairwise.nil
  | cons x xs ih => exact pairwise_wstawWg klucz x (sortujWg klucz xs) ih

/-- Stabilność wstawiania: elementy o danym kluczu `d` różnym od klucza
wstawianego elementu pozostają niezmienione. -/
theorem filter_wstawWg_ne (klucz : α → Nat) (x : α) (l : List α) (d : Nat)
    (hx : klucz x ≠ d) :
    (wstawWg klucz x l).filter (fun a => decide (klucz a = d)) =
      l.filter (fun a => decide (klucz a = d)) := by
  induction l with
  | nil => simp [wstawWg, hx]
  | cons y ys ih =>
    by_cases h : klucz x ≤ klucz y
    · rw [wstawWg, if_pos h]
      simp [List.filter_cons, hx]
    · rw [wstawWg, if_neg h]
      by_cases hy : klucz y = d
      · simp only [List.filter_cons, hy]
        simp [ih]
      · simp only [List.filter_cons, hy]
        simp only [decide_eq_true_eq, hy, if_false]
        simpa [hy] using ih

/-- Stabilność wstawiania: element o kluczu `d` wstawiony do listy
posortowanej trafia przed wszystkie elementy o kluczu `d`. -/
theorem filter_wstawWg_eq (klucz : α → Nat) (x : α) (l : List α)
    (hl : List.Pairwise (fun a b => klucz a ≤ klucz b) l) :
    (wstawWg klucz x l).filter (fun a => decide (klucz a = klucz x)) =
      x :: l.filter (fun a => decide (klucz a = klucz x)) := by
  induction l with
  | nil => simp [wstawWg]
  | cons y ys ih =>
    obtain ⟨hy, hys⟩ := List.pairwise_cons.mp hl
    by_cases h : klucz x ≤ klucz y
    · rw [wstawWg, if_pos h]
      simp [List.filter_cons]
    · rw [wstawWg, if_neg h]
      have hyx : klucz y ≠ klucz x := by
        intro hc
        exact h (le_of_eq hc.symm)
      simp only [List.filter_cons, decide_eq_true_eq, hyx, if_false]
      exact ih hys

/-- Stabilność sortowania: podciąg elementów o ustalonym kluczu nie zmienia
kolejności (model stabilności Timsorta). -/
theorem filter_sortujWg (klucz : α → Nat) (l : List α) (d : Nat) :
    (sortujWg klucz l).filter (fun a => decide (klucz a = d)) =
      l.filter (fun a => decide (klucz a = d)) := by
  induction l with
  | nil => rfl
  | cons x xs ih =>
    by_cases hx : klucz x = d
    · have := filter_wstawWg_eq klucz x (sortujWg klucz xs)
        (pairwise_sortujWg klucz xs)
      rw [sortujWg]
      rw [hx] at this
      rw [this, ih]
      simp [List.filter_cons, hx]
    · rw [sortujWg, filter_wstawWg_ne klucz x _ d hx, ih]
      simp [List.filter_cons, hx]

end TXM

namespace TXM

/-! ## Lematy o pętlach oznaczania (składanie `modifyAt` po rozłącznych
indeksach, w kształcie dokładnie takim jak w definicjach przebiegów) -/

theorem foldl_mozliwy_poza (rs : List (Nat × MetadanePliku))
    (acc : List MetadanePliku) (i : Nat) (h : ∀ p ∈ rs, p.1 ≠ i) :
    (rs.foldl
      (fun a p => modifyAt (fun m => { m with flaga := "możliwy duplikat" }) p.1 a)
      acc).get? i = acc.get? i := by
  induction rs generalizing acc with
  | nil => rfl
  | cons c rest ih =>
    simp only [List.foldl_cons]
    rw [ih _ (fun p hp => h p (List.mem_cons_of_mem c hp))]
    exact get_modifyAt_ne (h c (List.mem_cons_self c rest))

theorem foldl_mozliwy_mem (rs : List (Nat × MetadanePliku))
    (hnd : (rs.map Prod.fst).Nodup) (p : Nat × MetadanePliku) (hp : p ∈ rs)
    (acc : List MetadanePliku) (a : MetadanePliku)
    (ha : acc.get? p.1 = some a) :
    (rs.foldl
      (fun a' q => modifyAt (fun m => { m with flaga := "możliwy duplikat" }) q.1 a')
      acc).get? p.1 = some { a with flaga := "możliwy duplikat" } := by
  induction rs generalizing acc with
  | nil => simp at hp
  | cons c rest ih =>
    simp only [List.map_cons, List.nodup_cons] at hnd
    rcases List.mem_cons.mp hp with hp | hp
    · subst hp
      simp only [List.foldl_cons]
      rw [foldl_mozliwy_poza rest _ p.1
        (fun q hq hc => hnd.1 (hc ▸ List.mem_map_of_mem Prod.fst hq))]
      exact get_modifyAt_self ha
    · simp only [List.foldl_cons]
      refine ih hnd.2 hp _ ?_
      have hne : c.1 ≠ p.1 := fun hc =>
        hnd.1 (hc ▸ List.mem_map_of_mem Prod.fst hp)
      rw [get_modifyAt_ne hne]
      exact ha

theorem foldl_duplikat_poza (id0 : String) (rs : List (Nat × (Nat × MetadanePliku)))
    (acc : List MetadanePliku) (i : Nat) (h : ∀ jp ∈ rs, jp.2.1 ≠ i) :
    (rs.foldl
      (fun a jp =>
        modifyAt
          (fun m => { m with
            flaga := "duplikat"
            id_grupy := id0 ++ "-D" ++ napisLiczby (jp.1 + 1) })
          jp.2.1 a)
      acc).get? i = acc.get? i := by
  induction rs generalizing acc with
  | nil => rfl
  | cons c rest ih =>
    simp only [List.foldl_cons]
    rw [ih _ (fun jp hjp => h jp (List.mem_cons_of_mem c hjp))]
    exact get_modifyAt_ne (h c (List.mem_cons_self c rest))

theorem foldl_duplikat_mem (id0 : String) (rs : List (Nat × (Nat × MetadanePliku)))
    (hnd : (rs.map (fun jp => jp.2.1)).Nodup) (jp : Nat × (Nat × MetadanePliku))
    (hjp : jp ∈ rs) (acc : List MetadanePliku) (a : MetadanePliku)
    (ha : acc.get? jp.2.1 = some a) :
    (rs.foldl
      (fun a' q =>
        modifyAt
          (fun m => { m with
            flaga := "duplikat"
            id_grupy := id0 ++ "-D" ++ napisLiczby (q.1 + 1) })
          q.2.1 a')
      acc).get? jp.2.1 =
      some { a with
        flaga := "duplikat"
        id_grupy := id0 ++ "-D" ++ napisLiczby (jp.1 + 1) } := by
  induction rs generalizing acc with
  | nil => simp at hjp
  | cons c rest ih =>
    simp only [List.map_cons, List.nodup_cons] at hnd
    rcases List.mem_cons.mp hjp with hjp | hjp
    · subst hjp
      simp only [List.foldl_cons]
      rw [foldl_duplikat_poza id0 rest _ jp.2.1
        (fun q hq hc => hnd.1 (hc ▸ List.mem_map_of_mem (fun r => r.2.1) hq))]
      exact get_modifyAt_self ha
    · simp only [List.foldl_cons]
      refine ih hnd.2 hjp _ ?_
      have hne : c.2.1 ≠ jp.2.1 := fun hc =>
        hnd.1 (hc ▸ List.mem_map_of_mem (fun r => r.2.1) hjp)
      rw [get_modifyAt_ne hne]
      exact ha

/-! ## Lematy o przebiegu duplikatów po nazwie -/

theorem sortujWg_istnieje_glowa (klucz : α → Nat) (l : List α)
    (h : 0 < l.length) : ∃ org reszta, sortujWg klucz l = org :: reszta := by
  have hlen : (sortujWg klucz l).length = l.length :=
    (perm_sortujWg klucz l).length_eq
  cases hs : sortujWg klucz l with
  | nil => rw [hs] at hlen; simp at hlen; omega
  | cons org reszta => exact ⟨org, reszta, rfl⟩

theorem oznacz_grupe_nazw_poza {acc : List MetadanePliku}
    {grupa : List (Nat × MetadanePliku)} {i : Nat}
    (h : 1 < grupa.length → ∀ p ∈ grupa, p.1 ≠ i) :
    (oznacz_grupe_nazw acc grupa).get? i = acc.get? i := by
  by_cases hbig : 1 < grupa.length
  · have hmem : ∀ p ∈ sortujWg kluczDaty grupa, p.1 ≠ i := fun p hp =>
      h hbig p ((perm_sortujWg kluczDaty grupa).mem_iff.mp hp)
    cases hs : sortujWg kluczDaty grupa with
    | nil => simp [oznacz_grupe_nazw, hbig, hs]
    | cons org reszta =>
      rw [oznacz_grupe_nazw, if_pos hbig, hs]
      dsimp only
      rw [foldl_mozliwy_poza reszta _ i
        (fun p hp => hmem p (hs ▸ List.mem_cons_of_mem org hp))]
      exact get_modifyAt_ne (hmem org (hs ▸ List.mem_cons_self org reszta))
  · rw [oznacz_grupe_nazw, if_neg hbig]

theorem oznacz_grupe_nazw_spec (acc : List MetadanePliku)
    {grupa : List (Nat × MetadanePliku)} {org : Nat × MetadanePliku}
    {reszta : List (Nat × MetadanePliku)}
    (hbig : 1 < grupa.length)
    (hs : sortujWg kluczDaty grupa = org :: reszta)
    (hnd : (grupa.map Prod.fst).Nodup)
    (hacc : ∀ p ∈ grupa, acc.get? p.1 = some p.2) :
    (oznacz_grupe_nazw acc grupa).get? org.1 =
        some { org.2 with flaga := "oryginał" } ∧
      ∀ p ∈ reszta, (oznacz_grupe_nazw acc grupa).get? p.1 =
        some { p.2 with flaga := "możliwy duplikat" } := by
  have hperm : List.Perm (sortujWg kluczDaty grupa) grupa :=
    perm_sortujWg kluczDaty grupa
  have hnds : ((org :: reszta).map Prod.fst).Nodup := by
    rw [← hs]
    exact ((hperm.map Prod.fst).nodup_iff).mpr hnd
  simp only [List.map_cons, List.nodup_cons] at hnds
  have horg_mem : org ∈ grupa := hperm.mem_iff.mp (hs ▸ List.mem_cons_self org reszta)
  have hreszta_mem : ∀ p ∈ reszta, p ∈ grupa := fun p hp =>
    hperm.mem_iff.mp (hs ▸ List.mem_cons_of_mem org hp)
  rw [oznacz_grupe_nazw, if_pos hbig, hs]
  dsimp only
  constructor
  · rw [foldl_mozliwy_poza reszta _ org.1
      (fun p hp hc => hnds.1 (hc ▸ List.mem_map_of_mem Prod.fst hp))]
    exact get_modifyAt_self (hacc org horg_mem)
  · intro p hp
    refine foldl_mozliwy_mem reszta hnds.2 p hp _ p.2 ?_
    have hne : org.1 ≠ p.1 := fun hc =>
      hnds.1 (hc ▸ List.mem_map_of_mem Prod.fst hp)
    rw [get_modifyAt_ne hne]
    exact hacc p (hreszta_mem p hp)

theorem foldl_grup_nazw_poza (gs : List (List (Nat × MetadanePliku)))
    (acc : List MetadanePliku) (i : Nat)
    (h : ∀ g ∈ gs, 1 < g.length → ∀ p ∈ g, p.1 ≠ i) :
    (gs.foldl oznacz_grupe_nazw acc).get? i = acc.get? i := by
  induction gs generalizing acc with
  | nil => rfl
  | cons g rest ih =>
    simp only [List.foldl_cons]
    rw [ih _ (fun g' hg' => h g' (List.mem_cons_of_mem g hg'))]
    exact oznacz_grupe_nazw_poza (h g (List.mem_cons_self g rest))

theorem foldl_grup_nazw_spec (gs : List (List (Nat × MetadanePliku)))
    (k : Nat) (grupa : List (Nat × MetadanePliku))
    (hk : gs.get? k = some grupa)
    (hdisj : List.Pairwise (fun g h => ∀ p ∈ g, ∀ q ∈ h, p.1 ≠ q.1) gs)
    (hnd : ∀ g ∈ gs, (g.map Prod.fst).Nodup)
    (acc : List MetadanePliku)
    (hacc : ∀ g ∈ gs, ∀ p ∈ g, acc.get? p.1 = some p.2) :
    (grupa.length ≤ 1 →
      ∀ p ∈ grupa, (gs.foldl oznacz_grupe_nazw acc).get? p.1 = some p.2) ∧
    (∀ org reszta, sortujWg kluczDaty grupa = org :: reszta → 1 < grupa.length →
      (gs.foldl oznacz_grupe_nazw acc).get? org.1 =
          some { org.2 with flaga := "oryginał" } ∧
        ∀ p ∈ reszta, (gs.foldl oznacz_grupe_nazw acc).get? p.1 =
          some { p.2 with flaga := "możliwy duplikat" }) := by
  induction gs generalizing k acc with
  | nil => simp at hk
  | cons g0 rest ih =>
    obtain ⟨hd0, hdrest⟩ := List.pairwise_cons.mp hdisj
    cases k with
    | zero =>
      have hg : g0 = grupa := by simpa using hk
      subst hg
      simp only [List.foldl_cons]
      have hperm := perm_sortujWg kluczDaty g0
      constructor
      · intro hsmall p hp
        have hrama : ∀ g ∈ rest, 1 < g.length → ∀ q ∈ g, q.1 ≠ p.1 :=
          fun g hg _ q hq => fun hc => hd0 g hg p hp q hq hc.symm
        rw [foldl_grup_nazw_poza rest _ p.1 hrama]
        rw [oznacz_grupe_nazw, if_neg (by omega)]
        exact hacc g0 (List.mem_cons_self g0 rest) p hp
      · intro org reszta hs hbig
        have hspec := oznacz_grupe_nazw_spec acc hbig hs
          (hnd g0 (List.mem_cons_self g0 rest))
          (hacc g0 (List.mem_cons_self g0 rest))
        have horg_mem : org ∈ g0 :=
          hperm.mem_iff.mp (hs ▸ List.mem_cons_self org reszta)
        have hrama : ∀ i0, (∃ p ∈ g0, p.1 = i0) →
            (rest.foldl oznacz_grupe_nazw (oznacz_grupe_nazw acc g0)).get? i0 =
              (oznacz_grupe_nazw acc g0).get? i0 := by
          rintro i0 ⟨p, hp, rfl⟩
          exact foldl_grup_nazw_poza rest _ p.1
            (fun g hg _ q hq hc => hd0 g hg p hp q hq hc.symm)
        constructor
        · rw [hrama org.1 ⟨org, horg_mem, rfl⟩]
          exact hspec.1
        · intro p hp
          have hpg : p ∈ g0 :=
            hperm.mem_iff.mp (hs ▸ List.mem_cons_of_mem org hp)
          rw [hrama p.1 ⟨p, hpg, rfl⟩]
          exact hspec.2 p hp
    | succ k =>
      simp only [List.get?] at hk
      simp only [List.foldl_cons]
      refine ih k hk hdrest (fun g hg => hnd g (List.mem_cons_of_mem g0 hg)) _ ?_
      intro g hg p hp
      rw [oznacz_grupe_nazw_poza (fun _ q hq hc => hd0 g hg q hq p hp hc)]
      exact hacc g (List.mem_cons_of_mem g0 hg) p hp

end TXM

namespace TXM

/-! ## Własności list grup obu przebiegów -/

theorem nodup_fst_zIndeksami (l : List α) :
    ((zIndeksami l).map Prod.fst).Nodup :=
  List.pairwise_map.mpr ((pairwise_fst_zIndeksami l).imp (fun h => Nat.ne_of_lt h))

theorem podlista_grupy_nazw {ms : List MetadanePliku}
    {grupa : List (Nat × MetadanePliku)} (hg : grupa ∈ grupy_nazw ms) :
    List.Sublist grupa (zIndeksami ms) :=
  podlista_grupy hg

theorem hdisj_grupy_nazw (ms : List MetadanePliku) :
    List.Pairwise (fun g h => ∀ p ∈ g, ∀ q ∈ h, p.1 ≠ q.1) (grupy_nazw ms) :=
  pairwise_rozlaczne_groupByKey kluczNazwy (zIndeksami ms)
    (fun _ _ _ ha hb => funkcyjnosc_zIndeksami ha hb)

theorem hnd_grupy_nazw {ms : List MetadanePliku}
    {grupa : List (Nat × MetadanePliku)} (hg : grupa ∈ grupy_nazw ms) :
    (grupa.map Prod.fst).Nodup :=
  (nodup_fst_zIndeksami ms).sublist ((podlista_grupy_nazw hg).map Prod.fst)

theorem hacc_grupy_nazw {ms : List MetadanePliku}
    {grupa : List (Nat × MetadanePliku)} (hg : grupa ∈ grupy_nazw ms) :
    ∀ p ∈ grupa, ms.get? p.1 = some p.2 := fun p hp =>
  get_zIndeksami ((podlista_grupy_nazw hg).mem hp)

theorem pairwise_fst_grupy_nazw {ms : List MetadanePliku}
    {grupa : List (Nat × MetadanePliku)} (hg : grupa ∈ grupy_nazw ms) :
    List.Pairwise (fun p q => p.1 < q.1) grupa :=
  (pairwise_fst_zIndeksami ms).sublist (podlista_grupy_nazw hg)

/-! ## Własności grup przebiegu po haszu -/

theorem pairwise_flatMap {B G : Type} (R : G → G → Prop) (outer : List B)
    (inner : B → List G)
    (houter : List.Pairwise (fun b b' => ∀ g ∈ inner b, ∀ g' ∈ inner b', R g g') outer)
    (hinner : ∀ b ∈ outer, List.Pairwise R (inner b)) :
    List.Pairwise R (outer.flatMap inner) := by
  induction outer with
  | nil => exact List.Pairwise.nil
  | cons b bs ih =>
    obtain ⟨hb, hbs⟩ := List.pairwise_cons.mp houter
    rw [List.flatMap_cons]
    refine List.pairwise_append.mpr
      ⟨hinner b (List.mem_cons_self b bs),
       ih hbs (fun b' hb' => hinner b' (List.mem_cons_of_mem b hb')), ?_⟩
    intro g hg g' hg'
    obtain ⟨b', hb', hgb'⟩ := List.mem_flatMap.mp hg'
    exact hb b' hb' g hg g' hgb'

theorem podlista_grupy_hashy {ms : List MetadanePliku}
    {grupa : List (Nat × MetadanePliku)} (hg : grupa ∈ grupy_hashy ms) :
    List.Sublist grupa (zIndeksami ms) := by
  obtain ⟨pliki, hpliki, hgr⟩ := List.mem_flatMap.mp hg
  have h1 : List.Sublist grupa pliki := podlista_grupy hgr
  have h2 : List.Sublist pliki
      ((zIndeksami ms).filter (fun p => decide (p.2.hash_sha256 ≠ ""))) :=
    podlista_grupy hpliki
  exact (h1.trans h2).trans (List.filter_sublist _)

theorem czlonkowie_grupy_hashy {ms : List MetadanePliku}
    {grupa : List (Nat × MetadanePliku)} (hg : grupa ∈ grupy_hashy ms) :
    ∀ p ∈ grupa, p ∈ zIndeksami ms ∧ p.2.hash_sha256 ≠ "" := by
  intro p hp
  have hp' := (podlista_grupy_hashy hg).mem hp
  obtain ⟨pliki, hpliki, hgr⟩ := List.mem_flatMap.mp hg
  have h1 : p ∈ pliki := (podlista_grupy hgr).mem hp
  have h2 := (podlista_grupy hpliki).mem h1
  have h3 := List.mem_filter.mp h2
  exact ⟨List.mem_of_mem_filter h2, by simpa using h3.2⟩

theorem jednorodnosc_grupy_hashy {ms : List MetadanePliku}
    {grupa : List (Nat × MetadanePliku)} (hg : grupa ∈ grupy_hashy ms) :
    ∀ p ∈ grupa, ∀ q ∈ grupa,
      p.2.rozszerzenie = q.2.rozszerzenie ∧ p.2.hash_sha256 = q.2.hash_sha256 := by
  obtain ⟨pliki, hpliki, hgr⟩ := List.mem_flatMap.mp hg
  obtain ⟨h0, hczl⟩ := czlonkowie_grupy hgr
  obtain ⟨r0, hczl2⟩ := czlonkowie_grupy hpliki
  intro p hp q hq
  constructor
  · have h1 := (hczl2 p ((podlista_grupy hgr).mem hp)).2
    have h2 := (hczl2 q ((podlista_grupy hgr).mem hq)).2
    rw [kluczRozszerzenia] at h1 h2
    rw [h1, h2]
  · have h1 := (hczl p hp).2
    have h2 := (hczl q hq).2
    rw [kluczHasza] at h1 h2
    rw [h1, h2]

theorem hdisj_grupy_hashy (ms : List MetadanePliku) :
    List.Pairwise (fun g h => ∀ p ∈ g, ∀ q ∈ h, p.1 ≠ q.1) (grupy_hashy ms) := by
  rw [grupy_hashy]
  set xs := (zIndeksami ms).filter (fun p => decide (p.2.hash_sha256 ≠ "")) with hxs
  have hfun : ∀ i a b, (i, a) ∈ xs → (i, b) ∈ xs → a = b := by
    intro i a b ha hb
    exact funkcyjnosc_zIndeksami (List.mem_of_mem_filter ha)
      (List.mem_of_mem_filter hb)
  refine pairwise_flatMap _ _ _ ?_ ?_
  · have hbuckets := pairwise_rozlaczne_groupByKey kluczRozszerzenia xs hfun
    refine hbuckets.imp ?_
    intro b b' hbb' g hg g' hg' p hp q hq
    exact hbb' p ((podlista_grupy hg).mem hp) q ((podlista_grupy hg').mem hq)
  · intro b hb
    refine pairwise_rozlaczne_groupByKey kluczHasza b ?_
    intro i a a' ha ha'
    exact hfun i a a' ((podlista_grupy hb).mem ha) ((podlista_grupy hb).mem ha')

theorem hnd_grupy_hashy {ms : List MetadanePliku}
    {grupa : List (Nat × MetadanePliku)} (hg : grupa ∈ grupy_hashy ms) :
    (grupa.map Prod.fst).Nodup :=
  (nodup_fst_zIndeksami ms).sublist ((podlista_grupy_hashy hg).map Prod.fst)

theorem hacc_grupy_hashy {ms : List MetadanePliku}
    {grupa : List (Nat × MetadanePliku)} (hg : grupa ∈ grupy_hashy ms) :
    ∀ p ∈ grupa, ms.get? p.1 = some p.2 := fun p hp =>
  get_zIndeksami ((podlista_grupy_hashy hg).mem hp)

/-! ## Lematy o przebiegu duplikatów po haszu -/

theorem map_idx_zIndeksami (l : List (Nat × MetadanePliku)) :
    (zIndeksami l).map (fun jp => jp.2.1) = l.map Prod.fst := by
  have : (fun jp : Nat × (Nat × MetadanePliku) => jp.2.1) =
      Prod.fst ∘ Prod.snd := rfl
  rw [this, ← List.map_map, zIndeksami, zIndeksamiOd_map_snd]

theorem oznacz_grupe_hash_poza {licznik : Nat} {acc : List MetadanePliku}
    {grupa : List (Nat × MetadanePliku)} {i : Nat}
    (h : ∀ p ∈ grupa, p.1 ≠ i) :
    (oznacz_grupe_hash licznik acc grupa).get? i = acc.get? i := by
  have hmem : ∀ p ∈ sortujWg kluczDaty grupa, p.1 ≠ i := fun p hp =>
    h p ((perm_sortujWg kluczDaty grupa).mem_iff.mp hp)
  cases hs : sortujWg kluczDaty grupa with
  | nil => simp [oznacz_grupe_hash, hs]
  | cons org reszta =>
    rw [oznacz_grupe_hash, hs]
    dsimp only
    rw [foldl_duplikat_poza (pad2 licznik) (zIndeksami reszta) _ i ?_]
    · exact get_modifyAt_ne (hmem org (hs ▸ List.mem_cons_self org reszta))
    · intro jp hjp
      have : jp.2 ∈ reszta := by
        have := get_zIndeksami (l := reszta) (i := jp.1) (a := jp.2)
        exact List.get?_mem (this (by simpa using hjp))
      exact hmem jp.2 (hs ▸ List.mem_cons_of_mem org this)

theorem oznacz_grupe_hash_spec (licznik : Nat) (acc : List MetadanePliku)
    {grupa : List (Nat × MetadanePliku)} {org : Nat × MetadanePliku}
    {reszta : List (Nat × MetadanePliku)}
    (hs : sortujWg kluczDaty grupa = org :: reszta)
    (hnd : (grupa.map Prod.fst).Nodup)
    (hacc : ∀ p ∈ grupa, acc.get? p.1 = some p.2) :
    (oznacz_grupe_hash licznik acc grupa).get? org.1 =
        some { org.2 with flaga := "oryginał", id_grupy := pad2 licznik ++ "-o" } ∧
      ∀ j p, reszta.get? j = some p →
        (oznacz_grupe_hash licznik acc grupa).get? p.1 =
          some { p.2 with
            flaga := "duplikat"
            id_grupy := pad2 licznik ++ "-D" ++ napisLiczby (j + 1) } := by
  have hperm : List.Perm (sortujWg kluczDaty grupa) grupa :=
    perm_sortujWg kluczDaty grupa
  have hnds : ((org :: reszta).map Prod.fst).Nodup := by
    rw [← hs]
    exact ((hperm.map Prod.fst).nodup_iff).mpr hnd
  simp only [List.map_cons, List.nodup_cons] at hnds
  have horg_mem : org ∈ grupa := hperm.mem_iff.mp (hs ▸ List.mem_cons_self org reszta)
  have hreszta_mem : ∀ p ∈ reszta, p ∈ grupa := fun p hp =>
    hperm.mem_iff.mp (hs ▸ List.mem_cons_of_mem org hp)
  have hndidx : ((zIndeksami reszta).map (fun jp => jp.2.1)).Nodup := by
    rw [map_idx_zIndeksami]
    exact hnds.2
  rw [oznacz_grupe_hash, hs]
  dsimp only
  constructor
  · rw [foldl_duplikat_poza (pad2 licznik) (zIndeksami reszta) _ org.1 ?_]
    · exact get_modifyAt_self (hacc org horg_mem)
    · intro jp hjp hc
      have hj : jp.2 ∈ reszta :=
        List.get?_mem (get_zIndeksami (l := reszta) (by simpa using hjp))
      exact hnds.1 (hc ▸ List.mem_map_of_mem Prod.fst hj)
  · intro j p hjp
    have hmem : ((j, p) : Nat × (Nat × MetadanePliku)) ∈ zIndeksami reszta :=
      mem_zIndeksami_of_get hjp
    have hp : p ∈ reszta := List.get?_mem hjp
    have hpre : (modifyAt
        (fun m => { m with flaga := "oryginał", id_grupy := pad2 licznik ++ "-o" })
        org.1 acc).get? p.1 = some p.2 := by
      have hne : org.1 ≠ p.1 := fun hc =>
        hnds.1 (hc ▸ List.mem_map_of_mem Prod.fst hp)
      rw [get_modifyAt_ne hne]
      exact hacc p (hreszta_mem p hp)
    exact foldl_duplikat_mem (pad2 licznik) (zIndeksami reszta) hndidx (j, p)
      hmem _ p.2 hpre

end TXM

namespace TXM

/-! ## Składanie kroków przebiegu po haszu -/

theorem foldl_krok_filter (gs : List (List (Nat × MetadanePliku)))
    (st : List MetadanePliku × Nat) :
    gs.foldl krok_dokladnych st =
      (gs.filter (fun g => decide (1 < g.length))).foldl krok_dokladnych st := by
  induction gs generalizing st with
  | nil => rfl
  | cons g rest ih =>
    by_cases hbig : 1 < g.length
    · rw [List.foldl_cons, List.filter_cons_of_pos (by simpa using hbig),
        List.foldl_cons]
      exact ih _
    · rw [List.foldl_cons, List.filter_cons_of_neg (by simpa using hbig)]
      rw [krok_dokladnych, if_neg hbig]
      exact ih _

theorem foldl_krok_poza (gs : List (List (Nat × MetadanePliku)))
    (st : List MetadanePliku × Nat) (i : Nat)
    (h : ∀ g ∈ gs, 1 < g.length → ∀ p ∈ g, p.1 ≠ i) :
    (gs.foldl krok_dokladnych st).1.get? i = st.1.get? i := by
  induction gs generalizing st with
  | nil => rfl
  | cons g rest ih =>
    simp only [List.foldl_cons]
    rw [ih _ (fun g' hg' => h g' (List.mem_cons_of_mem g hg'))]
    by_cases hbig : 1 < g.length
    · rw [krok_dokladnych, if_pos hbig]
      exact oznacz_grupe_hash_poza (h g (List.mem_cons_self g rest) hbig)
    · rw [krok_dokladnych, if_neg hbig]

/-- Główny lemat przebiegu po haszu (na liście grup, z których każda ma
więcej niż jeden element): grupa na pozycji `k` dostaje numer `n0 + k + 1`. -/
theorem foldl_krok_spec (gs : List (List (Nat × MetadanePliku)))
    (hall : ∀ g ∈ gs, 1 < g.length)
    (k : Nat) (grupa : List (Nat × MetadanePliku))
    (hk : gs.get? k = some grupa)
    (hdisj : List.Pairwise (fun g h => ∀ p ∈ g, ∀ q ∈ h, p.1 ≠ q.1) gs)
    (hnd : ∀ g ∈ gs, (g.map Prod.fst).Nodup)
    (acc : List MetadanePliku) (n0 : Nat)
    (hacc : ∀ g ∈ gs, ∀ p ∈ g, acc.get? p.1 = some p.2) :
    ∀ org reszta, sortujWg kluczDaty grupa = org :: reszta →
      (gs.foldl krok_dokladnych (acc, n0)).1.get? org.1 =
          some { org.2 with
            flaga := "oryginał"
            id_grupy := pad2 (n0 + k + 1) ++ "-o" } ∧
        ∀ j p, reszta.get? j = some p →
          (gs.foldl krok_dokladnych (acc, n0)).1.get? p.1 =
            some { p.2 with
              flaga := "duplikat"
              id_grupy := pad2 (n0 + k + 1) ++ "-D" ++ napisLiczby (j + 1) } := by
  induction gs generalizing k acc n0 with
  | nil => simp at hk
  | cons g0 rest ih =>
    obtain ⟨hd0, hdrest⟩ := List.pairwise_cons.mp hdisj
    have hbig0 : 1 < g0.length := hall g0 (List.mem_cons_self g0 rest)
    have hkrok : krok_dokladnych (acc, n0) g0 =
        (oznacz_grupe_hash (n0 + 1) acc g0, n0 + 1) := by
      rw [krok_dokladnych, if_pos hbig0]
    cases k with
    | zero =>
      have hg : g0 = grupa := by simpa using hk
      subst hg
      intro org reszta hs
      have hperm := perm_sortujWg kluczDaty g0
      have horg_mem : org ∈ g0 :=
        hperm.mem_iff.mp (hs ▸ List.mem_cons_self org reszta)
      have hspec := oznacz_grupe_hash_spec (n0 + 1) acc hs
        (hnd g0 (List.mem_cons_self g0 rest))
        (hacc g0 (List.mem_cons_self g0 rest))
      have hrama : ∀ i0, (∃ p ∈ g0, p.1 = i0) →
          (rest.foldl krok_dokladnych (oznacz_grupe_hash (n0 + 1) acc g0, n0 + 1)).1.get? i0 =
            (oznacz_grupe_hash (n0 + 1) acc g0).get? i0 := by
        rintro i0 ⟨p, hp, rfl⟩
        exact foldl_krok_poza rest _ p.1
          (fun g hg _ q hq hc => hd0 g hg p hp q hq hc.symm)
      simp only [List.foldl_cons, hkrok]
      constructor
      · rw [hrama org.1 ⟨org, horg_mem, rfl⟩]
        exact hspec.1
      · intro j p hjp
        have hpg : p ∈ g0 := hperm.mem_iff.mp
          (hs ▸ List.mem_cons_of_mem org (List.get?_mem hjp))
        rw [hrama p.1 ⟨p, hpg, rfl⟩]
        exact hspec.2 j p hjp
    | succ k =>
      simp only [List.get?] at hk
      simp only [List.foldl_cons, hkrok]
      intro org reszta hs
      have harith : n0 + 1 + k + 1 = n0 + (k + 1) + 1 := by omega
      have := ih (fun g hg => hall g (List.mem_cons_of_mem g0 hg)) k hk hdrest
        (fun g hg => hnd g (List.mem_cons_of_mem g0 hg))
        (oznacz_grupe_hash (n0 + 1) acc g0) (n0 + 1) ?_ org reszta hs
      · rw [harith] at this
        exact this
      · intro g hg p hp
        rw [oznacz_grupe_hash_poza (fun q hq hc => hd0 g hg q hq p hp hc)]
        exact hacc g (List.mem_cons_of_mem g0 hg) p hp

/-! ## Lematy o etapie metadanych graficznych -/

theorem get_modifyAt_wprost (f : α → α) (l : List α) (i : Nat) :
    (modifyAt f i l).get? i = (l.get? i).map f := by
  induction l generalizing i with
  | nil => cases i <;> rfl
  | cons x xs ih =>
    cases i with
    | zero => rfl
    | succ i => simpa [modifyAt] using ih i

end TXM

namespace TXM

theorem foldl_graf_proj (backend : MetadanePliku → AnalizaWynik)
    (rs : List (Nat × MetadanePliku)) (acc : List MetadanePliku)
    (st : StatsNarzedzia) (i : Nat) :
    (((rs.foldl (krok_metadanych_graficznych backend) (acc, st)).1.get? i).map
        (fun m => (m.flaga, m.id_grupy))) =
      ((acc.get? i).map (fun m => (m.flaga, m.id_grupy))) := by
  induction rs generalizing acc st with
  | nil => rfl
  | cons p rest ih =>
    simp only [List.foldl_cons, krok_metadanych_graficznych]
    cases hw : (pobierz_metadane_graficzne_pliku backend p.2).metadane with
    | none => exact ih acc st
    | some g =>
      rw [ih]
      by_cases hi : p.1 = i
      · subst hi
        rw [get_modifyAt_wprost]
        cases acc.get? p.1 with
        | none => rfl
        | some a => rfl
      · rw [get_modifyAt_ne hi]

/-- Etap metadanych graficznych nie zmienia `flaga` ani `id_grupy`
żadnego rekordu. -/
theorem pobierz_zachowuje_flagi (backend : MetadanePliku → AnalizaWynik)
    (ms : List MetadanePliku) (i : Nat) :
    (((pobierz_metadane_graficzne backend ms).1.get? i).map
        (fun m => (m.flaga, m.id_grupy))) =
      ((ms.get? i).map (fun m => (m.flaga, m.id_grupy))) :=
  foldl_graf_proj backend (zIndeksami ms) ms {} i

/-! ## Niezmiennik: niepuste `id_grupy` pociąga niepustą flagę -/


theorem forall_mem_modifyAt {f : α → α} {l : List α} {i : Nat} {P : α → Prop}
    (hl : ∀ a ∈ l, P a) (hf : ∀ a, P a → P (f a)) :
    ∀ a ∈ modifyAt f i l, P a := by
  intro a ha
  rcases mem_modifyAt ha with ha | ⟨b, hb, rfl⟩
  · exact hl a ha
  · exact hf b (hl b hb)

theorem flagaZId_foldl_mozliwy (rs : List (Nat × MetadanePliku))
    (acc : List MetadanePliku) (h : ∀ m ∈ acc, FlagaZId m) :
    ∀ m ∈ rs.foldl
      (fun a p => modifyAt (fun m => { m with flaga := "możliwy duplikat" }) p.1 a)
      acc, FlagaZId m := by
  induction rs generalizing acc with
  | nil => exact h
  | cons c rest ih =>
    simp only [List.foldl_cons]
    refine ih _ (forall_mem_modifyAt h ?_)
    intro a _ _
    exact (by decide : ("możliwy duplikat" : String) ≠ "")

theorem flagaZId_oznacz_grupe_nazw (acc : List MetadanePliku)
    (grupa : List (Nat × MetadanePliku)) (h : ∀ m ∈ acc, FlagaZId m) :
    ∀ m ∈ oznacz_grupe_nazw acc grupa, FlagaZId m := by
  by_cases hbig : 1 < grupa.length
  · cases hs : sortujWg kluczDaty grupa with
    | nil => rw [oznacz_grupe_nazw, if_pos hbig, hs]; exact h
    | cons org reszta =>
      rw [oznacz_grupe_nazw, if_pos hbig, hs]
      dsimp only
      refine flagaZId_foldl_mozliwy reszta _ (forall_mem_modifyAt h ?_)
      intro a _ _
      exact (by decide : ("oryginał" : String) ≠ "")
  · rw [oznacz_grupe_nazw, if_neg hbig]; exact h

theorem flagaZId_oznacz_mozliwe (ms : List MetadanePliku)
    (h : ∀ m ∈ ms, FlagaZId m) :
    ∀ m ∈ oznacz_mozliwe_duplikaty ms, FlagaZId m := by
  rw [oznacz_mozliwe_duplikaty]
  generalize grupy_nazw ms = gs
  induction gs generalizing ms with
  | nil => exact h
  | cons g rest ih =>
    simp only [List.foldl_cons]
    exact ih (oznacz_grupe_nazw ms g) (flagaZId_oznacz_grupe_nazw ms g h)

theorem flagaZId_foldl_duplikat (id0 : String)
    (rs : List (Nat × (Nat × MetadanePliku))) (acc : List MetadanePliku)
    (h : ∀ m ∈ acc, FlagaZId m) :
    ∀ m ∈ rs.foldl
      (fun a jp =>
        modifyAt
          (fun m => { m with
            flaga := "duplikat"
            id_grupy := id0 ++ "-D" ++ napisLiczby (jp.1 + 1) })
          jp.2.1 a)
      acc, FlagaZId m := by
  induction rs generalizing acc with
  | nil => exact h
  | cons c rest ih =>
    simp only [List.foldl_cons]
    refine ih _ (forall_mem_modifyAt h ?_)
    intro a _ _
    exact (by decide : ("duplikat" : String) ≠ "")

theorem flagaZId_oznacz_grupe_hash (licznik : Nat) (acc : List MetadanePliku)
    (grupa : List (Nat × MetadanePliku)) (h : ∀ m ∈ acc, FlagaZId m) :
    ∀ m ∈ oznacz_grupe_hash licznik acc grupa, FlagaZId m := by
  cases hs : sortujWg kluczDaty grupa with
  | nil => rw [oznacz_grupe_hash, hs]; exact h
  | cons org reszta =>
    rw [oznacz_grupe_hash, hs]
    dsimp only
    refine flagaZId_foldl_duplikat _ _ _ (forall_mem_modifyAt h ?_)
    intro a _ _
    exact (by decide : ("oryginał" : String) ≠ "")

theorem flagaZId_oznacz_dokladne (ms : List MetadanePliku)
    (h : ∀ m ∈ ms, FlagaZId m) :
    ∀ m ∈ oznacz_dokladne_duplikaty ms, FlagaZId m := by
  rw [oznacz_dokladne_duplikaty]
  generalize grupy_hashy ms = gs
  suffices hs : ∀ (st : List MetadanePliku × Nat), (∀ m ∈ st.1, FlagaZId m) →
      ∀ m ∈ (gs.foldl krok_dokladnych st).1, FlagaZId m by
    exact hs (ms, 0) h
  induction gs with
  | nil => intro st hst; exact hst
  | cons g rest ih =>
    intro st hst
    simp only [List.foldl_cons]
    refine ih _ ?_
    by_cases hbig : 1 < g.length
    · rw [krok_dokladnych, if_pos hbig]
      exact flagaZId_oznacz_grupe_hash (st.2 + 1) st.1 g hst
    · rw [krok_dokladnych, if_neg hbig]
      exact hst

theorem flagaZId_pobierz (backend : MetadanePliku → AnalizaWynik)
    (ms : List MetadanePliku) (h : ∀ m ∈ ms, FlagaZId m) :
    ∀ m ∈ (pobierz_metadane_graficzne backend ms).1, FlagaZId m := by
  rw [pobierz_metadane_graficzne]
  generalize zIndeksami ms = rs
  suffices hs : ∀ (st : List MetadanePliku × StatsNarzedzia), (∀ m ∈ st.1, FlagaZId m) →
      ∀ m ∈ (rs.foldl (krok_metadanych_graficznych backend) st).1, FlagaZId m by
    exact hs (ms, {}) h
  induction rs with
  | nil => intro st hst; exact hst
  | cons p rest ih =>
    intro st hst
    simp only [List.foldl_cons, krok_metadanych_graficznych]
    cases hw : (pobierz_metadane_graficzne_pliku backend p.2).metadane with
    | none => exact ih st hst
    | some g =>
      refine ih _ (forall_mem_modifyAt hst ?_)
      intro a ha hid
      exact ha hid

theorem flagaZId_utworz (stat : String → Option StatInfo)
    (pliki_wedlug_rozszerzen : List (String × List String)) :
    ∀ m ∈ utworz_podstawowe_metadane stat pliki_wedlug_rozszerzen, FlagaZId m := by
  intro m hm
  obtain ⟨q, _, hq⟩ := List.mem_filterMap.mp hm
  obtain ⟨s, _, rfl⟩ := Option.map_eq_some.mp hq
  intro hid
  exact absurd rfl hid

theorem flagaZId_oblicz_hashe (hasher : String → String) (ms : List MetadanePliku)
    (h : ∀ m ∈ ms, FlagaZId m) :
    ∀ m ∈ oblicz_hashe hasher ms, FlagaZId m := by
  intro m hm
  obtain ⟨a, ha, rfl⟩ := List.mem_map.mp hm
  intro hid
  exact h a ha hid

/-! ## Różnowartościowość zapisu dziesiętnego i `pad2` -/



theorem wartoscZnakow_append_cyfra (cs : List Char) (c : Char) :
    wartoscZnakow (cs ++ [c]) = wartoscZnakow cs * 10 + wartoscCyfry c := by
  rw [wartoscZnakow, List.foldl_append]
  rfl

theorem wartosc_cyfra_male : ∀ n, n < 10 → wartoscCyfry (cyfra n) = n := by decide

theorem cyfryAux_wartosc : ∀ paliwo n, n < paliwo →
    wartoscZnakow (cyfryAux paliwo n) = n := by
  intro paliwo
  induction paliwo with
  | zero => intro n h; omega
  | succ paliwo ih =>
    intro n h
    by_cases h10 : n < 10
    · rw [cyfryAux, if_pos h10]
      have := wartosc_cyfra_male n h10
      simp [wartoscZnakow, this]
    · rw [cyfryAux, if_neg h10]
      rw [wartoscZnakow_append_cyfra]
      have hlt : n / 10 < paliwo := by omega
      rw [ih (n / 10) hlt, wartosc_cyfra_male (n % 10) (by omega)]
      omega

theorem wartosc_cyfry_liczby (n : Nat) : wartoscZnakow (cyfry n) = n :=
  cyfryAux_wartosc (n + 1) n (by omega)

theorem cyfry_inj {a b : Nat} (h : cyfry a = cyfry b) : a = b := by
  have := congrArg wartoscZnakow h
  rwa [wartosc_cyfry_liczby, wartosc_cyfry_liczby] at this

theorem cyfra_niezero : ∀ n, 1 ≤ n → n < 10 → cyfra n ≠ '0' := by decide

theorem cyfryAux_glowa : ∀ paliwo n, n < paliwo → 1 ≤ n →
    ∃ c cs, cyfryAux paliwo n = c :: cs ∧ c ≠ '0' := by
  intro paliwo
  induction paliwo with
  | zero => intro n h; omega
  | succ paliwo ih =>
    intro n h h1
    by_cases h10 : n < 10
    · exact ⟨cyfra n, [], by rw [cyfryAux, if_pos h10], cyfra_niezero n h1 h10⟩
    · obtain ⟨c, cs, hc, hne⟩ := ih (n / 10) (by omega) (by omega)
      refine ⟨c, cs ++ [cyfra (n % 10)], ?_, hne⟩
      rw [cyfryAux, if_neg h10, hc]
      rfl

/-- Różnowartościowość formatu `f"{n:02d}"`: różne numery grup dają różne
prefiksy identyfikatorów. -/
theorem pad2_inj : ∀ a b : Nat, pad2 a = pad2 b → a = b := by
  intro a b h
  have h' : pad2Znaki a = pad2Znaki b := congrArg String.data h
  by_cases ha : a < 10 <;> by_cases hb : b < 10
  · rw [pad2Znaki, if_pos ha, pad2Znaki, if_pos hb] at h'
    exact cyfry_inj (List.tail_eq_of_cons_eq h')
  · rw [pad2Znaki, if_pos ha, pad2Znaki, if_neg hb] at h'
    obtain ⟨c, cs, hc, hne⟩ := cyfryAux_glowa (b + 1) b (by omega) (by omega)
    simp only [cyfry] at h'
    rw [hc] at h'
    exact absurd (List.head_eq_of_cons_eq h').symm hne
  · rw [pad2Znaki, if_neg ha, pad2Znaki, if_pos hb] at h'
    obtain ⟨c, cs, hc, hne⟩ := cyfryAux_glowa (a + 1) a (by omega) (by omega)
    simp only [cyfry] at h'
    rw [hc] at h'
    exact absurd (List.head_eq_of_cons_eq h') hne
  · rw [pad2Znaki, if_neg ha, pad2Znaki, if_neg hb] at h'
    exact cyfry_inj h'

end TXM

namespace TXM

/-! ## Głowa posortowanej grupy: minimalna data, a przy remisie pierwszy
napotkany (stabilność) -/

theorem glowa_sortowania_min {grupa : List (Nat × MetadanePliku)}
    {org : Nat × MetadanePliku} {reszta : List (Nat × MetadanePliku)}
    (hs : sortujWg kluczDaty grupa = org :: reszta) :
    ∀ p ∈ grupa, kluczDaty org ≤ kluczDaty p := by
  intro p hp
  have hsorted := pairwise_sortujWg kluczDaty grupa
  rw [hs] at hsorted
  obtain ⟨h1, _⟩ := List.pairwise_cons.mp hsorted
  have hp' : p ∈ org :: reszta :=
    hs ▸ (perm_sortujWg kluczDaty grupa).mem_iff.mpr hp
  rcases List.mem_cons.mp hp' with hp' | hp'
  · exact le_of_eq (by rw [hp'])
  · exact h1 p hp'

theorem glowa_sortowania_pierwsza {grupa : List (Nat × MetadanePliku)}
    {org : Nat × MetadanePliku} {reszta : List (Nat × MetadanePliku)}
    (hs : sortujWg kluczDaty grupa = org :: reszta)
    (hlt : List.Pairwise (fun p q => p.1 < q.1) grupa) :
    ∀ p ∈ grupa, kluczDaty p = kluczDaty org → org.1 ≤ p.1 := by
  intro p hp hpd
  have hstab := filter_sortujWg kluczDaty grupa (kluczDaty org)
  rw [hs, List.filter_cons] at hstab
  rw [if_pos (by simp)] at hstab
  have hltA : List.Pairwise (fun p q => p.1 < q.1)
      (grupa.filter (fun a => decide (kluczDaty a = kluczDaty org))) :=
    hlt.sublist (List.filter_sublist grupa)
  rw [← hstab] at hltA
  obtain ⟨h1, _⟩ := List.pairwise_cons.mp hltA
  have hpA : p ∈ org :: reszta.filter (fun a => decide (kluczDaty a = kluczDaty org)) := by
    rw [hstab]
    exact List.mem_filter.mpr ⟨hp, by simpa using hpd⟩
  rcases List.mem_cons.mp hpA with hpA | hpA
  · exact le_of_eq (by rw [hpA])
  · exact le_of_lt (h1 p hpA)

/-! ## Kolejność kolekcji wynikowej: porządek kubełkowy (do roszczenia o
kolejności odkrycia) -/

theorem filterMap_flatMap_pom (l : List α) (g : α → List β) (F : β → Option κ) :
    (l.flatMap g).filterMap F = l.flatMap (fun a => (g a).filterMap F) := by
  induction l with
  | nil => rfl
  | cons a l ih =>
    rw [List.flatMap_cons, List.filterMap_append, List.flatMap_cons, ih]

theorem filter_flatMap_pom (l : List α) (g : α → List β) (p : β → Bool) :
    (l.flatMap g).filter p = l.flatMap (fun a => (g a).filter p) := by
  induction l with
  | nil => rfl
  | cons a l ih =>
    rw [List.flatMap_cons, List.filter_append, List.flatMap_cons, ih]

theorem flatMap_if_eq [DecidableEq κ] (klucze : List κ) (hnd : klucze.Nodup)
    (k : κ) (L : κ → List β) (hL : L k = [] ∨ k ∈ klucze) :
    (klucze.flatMap (fun r => if r = k then L r else [])) = L k := by
  induction klucze with
  | nil =>
    rcases hL with hL | hL
    · simpa using hL.symm
    · simp at hL
  | cons r rest ih =>
    obtain ⟨hr, hrest⟩ := List.nodup_cons.mp hnd
    rw [List.flatMap_cons]
    by_cases hk : r = k
    · subst hk
      rw [if_pos rfl]
      have : (rest.flatMap (fun r' => if r' = r then L r' else [])) = [] := by
        rw [List.flatMap_eq_nil_iff]
        intro r' hr'
        rw [if_neg ?_]
        intro hc
        rw [hc] at hr'
        exact hr hr'
      rw [this, List.append_nil]
    · rw [if_neg hk, List.nil_append]
      refine ih hrest ?_
      rcases hL with hL | hL
      · exact Or.inl hL
      · rcases List.mem_cons.mp hL with hL | hL
        · exact absurd hL.symm hk
        · exact Or.inr hL

end TXM

namespace TXM

/-- C2 (skorygowane): przebieg po nazwie grupuje rekordy po nazwie bez
rozszerzenia (`grupy_nazw`); każda grupa o rozmiarze > 1 jest sortowana
stabilnie rosnąco po `data_utworzenia`, najwcześniejszy rekord dostaje flagę
"oryginał" (bez `id_grupy` — rekord zmienia się tylko w polu `flaga`),
późniejsze dostają "możliwy duplikat"; grupy rozmiaru 1 pozostają nietknięte.
Korekta dotyczy remisu: przy równych znacznikach czasu oryginałem zostaje
rekord wcześniejszy w kolekcji WEJŚCIOWEJ przebiegu po nazwie (`org.1 ≤ p.1`),
a ta kolekcja jest spłaszczeniem kubełków rozszerzeń — NIE jest to kolejność
odkrycia plików, wbrew tezie o "pierwszym napotkanym w kolejności odkrycia"
(kontrprzykład osobno). -/
theorem claim_C2 (ms : List MetadanePliku) (grupa : List (Nat × MetadanePliku))
    (hg : grupa ∈ grupy_nazw ms) :
    (grupa.length ≤ 1 →
      ∀ p ∈ grupa, (oznacz_mozliwe_duplikaty ms).get? p.1 = some p.2) ∧
    (1 < grupa.length → ∃ org reszta,
      sortujWg kluczDaty grupa = org :: reszta ∧
      (∀ p ∈ grupa, org.2.data_utworzenia ≤ p.2.data_utworzenia) ∧
      (∀ p ∈ grupa, p.2.data_utworzenia = org.2.data_utworzenia → org.1 ≤ p.1) ∧
      (oznacz_mozliwe_duplikaty ms).get? org.1 =
        some { org.2 with flaga := "oryginał" } ∧
      ∀ p ∈ reszta, (oznacz_mozliwe_duplikaty ms).get? p.1 =
        some { p.2 with flaga := "możliwy duplikat" }) := by
  obtain ⟨k, hk⟩ := List.mem_iff_get?.mp hg
  have hmaster := foldl_grup_nazw_spec (grupy_nazw ms) k grupa hk
    (hdisj_grupy_nazw ms) (fun g hg' => hnd_grupy_nazw hg') ms
    (fun g hg' => hacc_grupy_nazw hg')
  constructor
  · intro hsmall p hp
    rw [oznacz_mozliwe_duplikaty]
    exact hmaster.1 hsmall p hp
  · intro hbig
    obtain ⟨org, reszta, hs⟩ :=
      sortujWg_istnieje_glowa kluczDaty grupa (by omega)
    refine ⟨org, reszta, hs, ?_, ?_, ?_, ?_⟩
    · exact fun p hp => glowa_sortowania_min hs p hp
    · exact fun p hp hpd =>
        glowa_sortowania_pierwsza hs (pairwise_fst_grupy_nazw hg) p hp hpd
    · rw [oznacz_mozliwe_duplikaty]
      exact (hmaster.2 org reszta hs hbig).1
    · intro p hp
      rw [oznacz_mozliwe_duplikaty]
      exact (hmaster.2 org reszta hs hbig).2 p hp

/-- Świadek C2: dwa rekordy o rdzeniu nazwy "a" i równych znacznikach;
pierwszy napotkany zostaje oryginałem, drugi możliwym duplikatem. -/
theorem claim_C2_witness :
    grupaW2 ∈ grupy_nazw msW2 ∧
      ((grupaW2.length ≤ 1 →
        ∀ p ∈ grupaW2, (oznacz_mozliwe_duplikaty msW2).get? p.1 = some p.2) ∧
      (1 < grupaW2.length → ∃ org reszta,
        sortujWg kluczDaty grupaW2 = org :: reszta ∧
        (∀ p ∈ grupaW2, org.2.data_utworzenia ≤ p.2.data_utworzenia) ∧
        (∀ p ∈ grupaW2, p.2.data_utworzenia = org.2.data_utworzenia → org.1 ≤ p.1) ∧
        (oznacz_mozliwe_duplikaty msW2).get? org.1 =
          some { org.2 with flaga := "oryginał" } ∧
        ∀ p ∈ reszta, (oznacz_mozliwe_duplikaty msW2).get? p.1 =
          some { p.2 with flaga := "możliwy duplikat" })) :=
  ⟨by decide, claim_C2 msW2 grupaW2 (by decide)⟩

/-- Kontrprzykład C2 (remis w kolejności odkrycia): w `odkryteK2` plik
`/t/a.jpg` poprzedza `/t/a.png`; oba mają rdzeń nazwy "a" i równe znaczniki
czasu, lecz kolekcja wejściowa przebiegu po nazwie jest spłaszczeniem
kubełków rozszerzeń (`.png` przed `.jpg`), w którym `/t/a.png` stoi
wcześniej — oryginałem zostaje `/t/a.png`, a pierwszy odkryty `/t/a.jpg`
dostaje "możliwy duplikat". Remis wygrywa więc rekord wcześniejszy w
kolejności kubełkowej, nie pierwszy napotkany w kolejności odkrycia. -/
theorem claim_C2_counterexample :
    odkryteK2.get? 1 = some "/t/a.jpg" ∧
    odkryteK2.get? 2 = some "/t/a.png" ∧
    rdzenNazwyPliku "/t/a.jpg" = rdzenNazwyPliku "/t/a.png" ∧
    (∀ m ∈ msK2, m.data_utworzenia = 100) ∧
    (oznacz_mozliwe_duplikaty msK2).map (fun m => (m.sciezka, m.flaga)) =
      [("/t/b.png", ""), ("/t/a.png", "oryginał"),
       ("/t/a.jpg", "możliwy duplikat")] ∧
    ¬ ∃ m ∈ oznacz_mozliwe_duplikaty msK2,
        m.sciezka = "/t/a.jpg" ∧ m.flaga = "oryginał" := by
  decide

/-- C5 (skorygowane): grupa przebiegu po haszu jest jednorodna co do kubełka
rozszerzeń — wszyscy członkowie grupy mają to samo pole `rozszerzenie`
(kategorię) i tę samą wartość hasza. Kubełkiem jest jednak kategoria:
rozpoznane rozszerzenie graficzne albo wspólny kubełek "pozostałe", więc
dwa pliki o identycznej treści i różnych rozszerzeniach niegraficznych
mogą trafić do jednej grupy (kontrprzykład). -/
theorem claim_C5 (ms : List MetadanePliku) (grupa : List (Nat × MetadanePliku))
    (hg : grupa ∈ grupy_hashy ms) :
    ∀ p ∈ grupa, ∀ q ∈ grupa,
      p.2.rozszerzenie = q.2.rozszerzenie ∧ p.2.hash_sha256 = q.2.hash_sha256 :=
  jednorodnosc_grupy_hashy hg

/-- Kontrprzykład C5: pliki "/t/a.foo" i "/t/b.bar" mają różne rozszerzenia
plikowe, identyczną treść (ten sam hasz), a mimo to lądują w jednej grupie
dokładnych duplikatów "01" (oba w kubełku "pozostałe"). -/
theorem claim_C5_counterexample :
    rozszerzeniePliku "/t/a.foo" ≠ rozszerzeniePliku "/t/b.bar" ∧
      ((przetwarzaj_folder ["/t/a.foo", "/t/b.bar"] statC (fun _ => "h")
          backend0 false "").1.pliki.map (fun m => (m.flaga, m.id_grupy))) =
        [("oryginał", "01-o"), ("duplikat", "01-D1")] :=
  ⟨by decide, by decide⟩

/-- Świadek C5: konkretna grupa haszowa (dwa pliki "pozostałe" o wspólnym
haszu) jest jednorodna co do kubełka i hasza. -/
theorem claim_C5_witness :
    grupaW5 ∈ grupy_hashy msW5 ∧
      ∀ p ∈ grupaW5, ∀ q ∈ grupaW5,
        p.2.rozszerzenie = q.2.rozszerzenie ∧ p.2.hash_sha256 = q.2.hash_sha256 :=
  ⟨by decide, claim_C5 msW5 grupaW5 (by decide)⟩

/-- C9: rekord z pustym haszem (nieudane haszowanie) nie należy do żadnej
grupy przebiegu po haszu i przechodzi przez ten przebieg bez zmiany —
zachowuje flagę i `id_grupy` nadane przez przebieg po nazwie; w
szczególności dwa nieczytelne pliki nigdy nie zostają wzajemnymi
duplikatami. -/
theorem claim_C9 (ms : List MetadanePliku) (i : Nat) (m : MetadanePliku)
    (hm : ms.get? i = some m) (hpusty : m.hash_sha256 = "") :
    (oznacz_dokladne_duplikaty ms).get? i = some m ∧
      ∀ grupa ∈ grupy_hashy ms, ∀ p ∈ grupa, p.1 ≠ i := by
  have hnie : ∀ grupa ∈ grupy_hashy ms, ∀ p ∈ grupa, p.1 ≠ i := by
    intro grupa hg p hp hc
    have h1 := czlonkowie_grupy_hashy hg p hp
    have h1' : (p.1, p.2) ∈ zIndeksami ms := by simpa using h1.1
    rw [hc] at h1'
    have h2 : p.2 = m := funkcyjnosc_zIndeksami h1' (mem_zIndeksami_of_get hm)
    exact h1.2 (h2 ▸ hpusty)
  refine ⟨?_, hnie⟩
  rw [oznacz_dokladne_duplikaty]
  rw [foldl_krok_poza _ _ i (fun g hg _ p hp => hnie g hg p hp)]
  exact hm

/-- Świadek C9: rekord z pustym haszem i flagą "możliwy duplikat" z przebiegu
po nazwie przechodzi przez przebieg po haszu nietknięty. -/
theorem claim_C9_witness :
    msW9.get? 1 = some { mkMetadane "/t/y.png" ".png" ⟨1, 150, 200⟩ with
      flaga := "możliwy duplikat" } ∧
    ((oznacz_dokladne_duplikaty msW9).get? 1 =
        some { mkMetadane "/t/y.png" ".png" ⟨1, 150, 200⟩ with
          flaga := "możliwy duplikat" } ∧
      ∀ grupa ∈ grupy_hashy msW9, ∀ p ∈ grupa, p.1 ≠ 1) :=
  ⟨by decide, claim_C9 msW9 1 _ (by decide) (by decide)⟩

end TXM

namespace TXM

/-- C10: numery grup dokładnych duplikatów pochodzą z jednego licznika,
niezerowanego między kubełkami rozszerzeń: grupa na pozycji `k` (0-bazowej)
wśród wszystkich grup o rozmiarze > 1, w kolejności iteracji po kubełkach,
dostaje numer `k + 1` — numeracja zaczyna się od "01" i rośnie o 1; format
`pad2` jest różnowartościowy, więc żadne dwie różne grupy (także z różnych
kubełków) nie dzielą prefiksu liczbowego `id_grupy`. -/
theorem claim_C10 (ms : List MetadanePliku) (k : Nat)
    (grupa : List (Nat × MetadanePliku))
    (hk : ((grupy_hashy ms).filter (fun g => decide (1 < g.length))).get? k =
      some grupa) :
    ∃ org reszta, sortujWg kluczDaty grupa = org :: reszta ∧
      (oznacz_dokladne_duplikaty ms).get? org.1 =
        some { org.2 with flaga := "oryginał", id_grupy := pad2 (k + 1) ++ "-o" } ∧
      (∀ j p, reszta.get? j = some p →
        (oznacz_dokladne_duplikaty ms).get? p.1 =
          some { p.2 with
            flaga := "duplikat"
            id_grupy := pad2 (k + 1) ++ "-D" ++ napisLiczby (j + 1) }) ∧
      pad2 1 = "01" ∧
      (∀ a b : Nat, pad2 a = pad2 b → a = b) := by
  have hgf : grupa ∈ (grupy_hashy ms).filter (fun g => decide (1 < g.length)) :=
    List.get?_mem hk
  have hg : grupa ∈ grupy_hashy ms := List.mem_of_mem_filter hgf
  have hbig : 1 < grupa.length := by
    have := (List.mem_filter.mp hgf).2
    simpa using this
  have hall : ∀ g ∈ (grupy_hashy ms).filter (fun g => decide (1 < g.length)),
      1 < g.length := by
    intro g hgm
    have := (List.mem_filter.mp hgm).2
    simpa using this
  have hdisj' := (hdisj_grupy_hashy ms).sublist
    (List.filter_sublist (p := fun g => decide (1 < g.length)) (grupy_hashy ms))
  obtain ⟨org, reszta, hs⟩ :=
    sortujWg_istnieje_glowa kluczDaty grupa (by omega)
  have hmaster := foldl_krok_spec _ hall k grupa hk hdisj'
    (fun g hgm => hnd_grupy_hashy (List.mem_of_mem_filter hgm)) ms 0
    (fun g hgm => hacc_grupy_hashy (List.mem_of_mem_filter hgm)) org reszta hs
  simp only [Nat.zero_add] at hmaster
  have hod : oznacz_dokladne_duplikaty ms =
      (((grupy_hashy ms).filter (fun g => decide (1 < g.length))).foldl
        krok_dokladnych (ms, 0)).1 := by
    rw [oznacz_dokladne_duplikaty, foldl_krok_filter]
  refine ⟨org, reszta, hs, ?_, ?_, by decide, pad2_inj⟩
  · rw [hod]
    exact hmaster.1
  · intro j p hjp
    rw [hod]
    exact hmaster.2 j p hjp

/-- Świadek C10: w `msW1` jedyna duża grupa haszowa (pozycja 0) dostaje
numer 1, czyli identyfikatory "01-o" i "01-D1". -/
theorem claim_C10_witness :
    ((grupy_hashy msW1).filter (fun g => decide (1 < g.length))).get? 0 =
        some grupaW1 ∧
      (∃ org reszta, sortujWg kluczDaty grupaW1 = org :: reszta ∧
        (oznacz_dokladne_duplikaty msW1).get? org.1 =
          some { org.2 with flaga := "oryginał", id_grupy := pad2 (0 + 1) ++ "-o" } ∧
        (∀ j p, reszta.get? j = some p →
          (oznacz_dokladne_duplikaty msW1).get? p.1 =
            some { p.2 with
              flaga := "duplikat"
              id_grupy := pad2 (0 + 1) ++ "-D" ++ napisLiczby (j + 1) }) ∧
        pad2 1 = "01" ∧
        (∀ a b : Nat, pad2 a = pad2 b → a = b)) :=
  ⟨by decide, claim_C10 msW1 0 grupaW1 (by decide)⟩

/-- C1: każda grupa przebiegu po haszu (rekordy o tym samym niepustym haszu
w jednym kubełku rozszerzeń) o rozmiarze > 1 dostaje nowy numer kolejny `n`;
grupa jest sortowana rosnąco po `data_utworzenia`, najwcześniejszy członek
kończy przetwarzanie z flagą "oryginał" i `id_grupy = pad2 n ++ "-o"`
(nadpisując ewentualne "możliwy duplikat" z przebiegu po nazwie), a n-ty
kolejny członek z flagą "duplikat" i `id_grupy = pad2 n ++ "-D{j}"`
(j licząc od 1); etap metadanych graficznych nie zmienia flag, więc żaden
członek grupy haszowej nie kończy potoku z flagą "możliwy duplikat". -/
theorem claim_C1 (ms : List MetadanePliku)
    (backend : MetadanePliku → AnalizaWynik)
    (grupa : List (Nat × MetadanePliku)) (hg : grupa ∈ grupy_hashy ms)
    (hbig : 1 < grupa.length) :
    ∃ n org reszta, sortujWg kluczDaty grupa = org :: reszta ∧
      (∀ p ∈ grupa, org.2.data_utworzenia ≤ p.2.data_utworzenia) ∧
      (∀ p ∈ grupa, ∀ q ∈ grupa,
        p.2.hash_sha256 = q.2.hash_sha256 ∧ p.2.hash_sha256 ≠ "" ∧
          p.2.rozszerzenie = q.2.rozszerzenie) ∧
      (((pobierz_metadane_graficzne backend
            (oznacz_dokladne_duplikaty ms)).1.get? org.1).map
          (fun m => (m.flaga, m.id_grupy))) =
        some ("oryginał", pad2 n ++ "-o") ∧
      (∀ j p, reszta.get? j = some p →
        (((pobierz_metadane_graficzne backend
              (oznacz_dokladne_duplikaty ms)).1.get? p.1).map
            (fun m => (m.flaga, m.id_grupy))) =
          some ("duplikat", pad2 n ++ "-D" ++ napisLiczby (j + 1))) ∧
      (∀ p ∈ grupa,
        (((pobierz_metadane_graficzne backend
              (oznacz_dokladne_duplikaty ms)).1.get? p.1).map
            (fun m => m.flaga)) ≠ some "możliwy duplikat") := by
  have hgf : grupa ∈ (grupy_hashy ms).filter (fun g => decide (1 < g.length)) :=
    List.mem_filter.mpr ⟨hg, by simpa using hbig⟩
  obtain ⟨k, hk⟩ := List.mem_iff_get?.mp hgf
  have hall : ∀ g ∈ (grupy_hashy ms).filter (fun g => decide (1 < g.length)),
      1 < g.length := by
    intro g hgm
    have := (List.mem_filter.mp hgm).2
    simpa using this
  have hdisj' := (hdisj_grupy_hashy ms).sublist
    (List.filter_sublist (p := fun g => decide (1 < g.length)) (grupy_hashy ms))
  obtain ⟨org, reszta, hs⟩ :=
    sortujWg_istnieje_glowa kluczDaty grupa (by omega)
  have hmaster := foldl_krok_spec _ hall k grupa hk hdisj'
    (fun g hgm => hnd_grupy_hashy (List.mem_of_mem_filter hgm)) ms 0
    (fun g hgm => hacc_grupy_hashy (List.mem_of_mem_filter hgm)) org reszta hs
  have hod : oznacz_dokladne_duplikaty ms =
      (((grupy_hashy ms).filter (fun g => decide (1 < g.length))).foldl
        krok_dokladnych (ms, 0)).1 := by
    rw [oznacz_dokladne_duplikaty, foldl_krok_filter]
  have hperm := perm_sortujWg kluczDaty grupa
  have horg_proj :
      (((pobierz_metadane_graficzne backend
            (oznacz_dokladne_duplikaty ms)).1.get? org.1).map
          (fun m => (m.flaga, m.id_grupy))) =
        some ("oryginał", pad2 (0 + k + 1) ++ "-o") := by
    rw [pobierz_zachowuje_flagi, hod, hmaster.1]
    rfl
  have hdup_proj : ∀ j p, reszta.get? j = some p →
      (((pobierz_metadane_graficzne backend
            (oznacz_dokladne_duplikaty ms)).1.get? p.1).map
          (fun m => (m.flaga, m.id_grupy))) =
        some ("duplikat", pad2 (0 + k + 1) ++ "-D" ++ napisLiczby (j + 1)) := by
    intro j p hjp
    rw [pobierz_zachowuje_flagi, hod, hmaster.2 j p hjp]
    rfl
  refine ⟨0 + k + 1, org, reszta, hs, ?_, ?_, horg_proj, hdup_proj, ?_⟩
  · exact fun p hp => glowa_sortowania_min hs p hp
  · intro p hp q hq
    obtain ⟨hr, hh⟩ := jednorodnosc_grupy_hashy hg p hp q hq
    exact ⟨hh, (czlonkowie_grupy_hashy hg p hp).2, hr⟩
  · intro p hp
    have hp' : p ∈ org :: reszta := hs ▸ hperm.mem_iff.mpr hp
    have hflaga : ∀ fl idg,
        (((pobierz_metadane_graficzne backend
              (oznacz_dokladne_duplikaty ms)).1.get? p.1).map
            (fun m => (m.flaga, m.id_grupy))) = some (fl, idg) →
          fl ≠ "możliwy duplikat" →
          (((pobierz_metadane_graficzne backend
                (oznacz_dokladne_duplikaty ms)).1.get? p.1).map
              (fun m => m.flaga)) ≠ some "możliwy duplikat" := by
      intro fl idg hproj hne
      cases hget : (pobierz_metadane_graficzne backend
          (oznacz_dokladne_duplikaty ms)).1.get? p.1 with
      | none => rw [hget] at hproj; simp at hproj
      | some m =>
        rw [hget] at hproj
        simp only [Option.map_some'] at hproj
        have hfl : m.flaga = fl := congrArg Prod.fst (Option.some.inj hproj)
        simp only [Option.map_some']
        intro hc
        exact hne (hfl ▸ Option.some.inj hc)
    rcases List.mem_cons.mp hp' with hp' | hp'
    · subst hp'
      exact hflaga "oryginał" (pad2 (0 + k + 1) ++ "-o") horg_proj (by decide)
    · obtain ⟨j, hj⟩ := List.mem_iff_get?.mp hp'
      exact hflaga "duplikat" (pad2 (0 + k + 1) ++ "-D" ++ napisLiczby (j + 1))
        (hdup_proj j p hj) (by decide)

/-- Świadek C1: grupa haszowa w `msW1` kończy potok z flagami
"oryginał"/"duplikat" oraz identyfikatorami grupy 1. -/
theorem claim_C1_witness :
    grupaW1 ∈ grupy_hashy msW1 ∧ 1 < grupaW1.length ∧
      (∃ n org reszta, sortujWg kluczDaty grupaW1 = org :: reszta ∧
        (∀ p ∈ grupaW1, org.2.data_utworzenia ≤ p.2.data_utworzenia) ∧
        (∀ p ∈ grupaW1, ∀ q ∈ grupaW1,
          p.2.hash_sha256 = q.2.hash_sha256 ∧ p.2.hash_sha256 ≠ "" ∧
            p.2.rozszerzenie = q.2.rozszerzenie) ∧
        (((pobierz_metadane_graficzne backend0
              (oznacz_dokladne_duplikaty msW1)).1.get? org.1).map
            (fun m => (m.flaga, m.id_grupy))) =
          some ("oryginał", pad2 n ++ "-o") ∧
        (∀ j p, reszta.get? j = some p →
          (((pobierz_metadane_graficzne backend0
                (oznacz_dokladne_duplikaty msW1)).1.get? p.1).map
              (fun m => (m.flaga, m.id_grupy))) =
            some ("duplikat", pad2 n ++ "-D" ++ napisLiczby (j + 1))) ∧
        (∀ p ∈ grupaW1,
          (((pobierz_metadane_graficzne backend0
                (oznacz_dokladne_duplikaty msW1)).1.get? p.1).map
              (fun m => m.flaga)) ≠ some "możliwy duplikat")) :=
  ⟨by decide, by decide, claim_C1 msW1 backend0 grupaW1 (by decide) (by decide)⟩

end TXM

namespace TXM

theorem filterMap_map_para (ss : List String) (kk : String)
    (stat : String → Option StatInfo) :
    ((ss.map (fun sciezka => (sciezka, kk))).filterMap
        (fun q => (stat q.1).map (fun s => mkMetadane q.1 q.2 s))) =
      ss.filterMap (fun s => (stat s).map (fun si => mkMetadane s kk si)) := by
  induction ss with
  | nil => rfl
  | cons s ss ih =>
    rw [List.map_cons, List.filterMap_cons, List.filterMap_cons]
    cases stat s with
    | none => simpa using ih
    | some si => simp [ih]

end TXM

namespace TXM

/-- C3 (skorygowane): w wynikach potoku zachodzi tylko jedna strona
równoważności — rekord z niepustym `id_grupy` ma niepustą flagę (identyfikator
nadaje wyłącznie przebieg po haszu, który ustawia też flagę). Implikacja
odwrotna nie zachodzi: przebieg po nazwie ustawia flagi "oryginał" /
"możliwy duplikat" bez `id_grupy` (kontrprzykład). -/
theorem claim_C3 (pliki_odkryte : List String) (stat : String → Option StatInfo)
    (hasher : String → String) (backend : MetadanePliku → AnalizaWynik)
    (od : Bool) (sc : String) (m : MetadanePliku)
    (hm : m ∈ (przetwarzaj_folder pliki_odkryte stat hasher backend od sc).1.pliki)
    (hid : m.id_grupy ≠ "") : m.flaga ≠ "" := by
  have hpl : (przetwarzaj_folder pliki_odkryte stat hasher backend od sc).1.pliki =
      (pobierz_metadane_graficzne backend
        (oznacz_dokladne_duplikaty
          (oblicz_hashe hasher
            (oznacz_mozliwe_duplikaty
              (utworz_podstawowe_metadane stat
                (znajdz_i_posortuj_pliki pliki_odkryte)))))).1 := by
    simp only [przetwarzaj_folder, wyniki_przetwarzania]
  rw [hpl] at hm
  have hm' := hm
  exact flagaZId_pobierz backend _
    (flagaZId_oznacz_dokladne _
      (flagaZId_oblicz_hashe hasher _
        (flagaZId_oznacz_mozliwe _
          (flagaZId_utworz stat (znajdz_i_posortuj_pliki pliki_odkryte)))))
    m hm' hid

/-- Kontrprzykład C3: pliki "a.png"/"a.jpg" o tej samej nazwie bazowej,
różnej treści — przebieg po nazwie nadaje flagi, przebieg po haszu nie
tworzy grup, więc rekordy kończą z niepustą flagą i pustym `id_grupy`;
równoważność z roszczenia jest fałszywa. -/
theorem claim_C3_counterexample :
    ¬ ∀ m ∈ (przetwarzaj_folder ["/t/a.png", "/t/a.jpg"] statC hasherRozne
        backend0 false "").1.pliki, (m.id_grupy ≠ "" ↔ m.flaga ≠ "") := by
  decide

/-- Świadek C3: oryginał grupy haszowej ("01-o") ma niepustą flagę. -/
theorem claim_C3_witness :
    (rW3 ∈ (przetwarzaj_folder ["/t/b.png", "/t/c.png"] statC (fun _ => "h1")
        backend0 false "").1.pliki ∧ rW3.id_grupy ≠ "") ∧ rW3.flaga ≠ "" :=
  ⟨⟨by decide, by decide⟩,
    claim_C3 ["/t/b.png", "/t/c.png"] statC (fun _ => "h1") backend0 false ""
      rW3 (by decide) (by decide)⟩

/-- C6 (błąd w kodzie): pętla zbierająca statystyki w
`_pobierz_metadane_graficzne` przy udanej analizie backendem innym niż
"oiiotool" sięga po nieistniejący klucz "formaty_pil"; `KeyError` trafia do
`except Exception`, które zwiększa licznik "błąd". W efekcie dla jednego
pliku .png przeanalizowanego poprawnie przez PIL licznik "błąd" wynosi 1,
a liczniki sukcesów "PIL"/"oiiotool"/"brak" pozostają 0 — wbrew roszczeniu,
że liczniki sukcesów i błędów zliczają odpowiednio udane i nieudane
analizy. -/
theorem claim_C6 :
    (pobierz_metadane_graficzne backendPILC msC6).2 =
        { oiiotool := 0, PIL := 0, brak := 0, blad := 1,
          formaty_oiiotool_poprawnie := 0, formaty_oiiotool_niepoprawnie := 0 } ∧
      ((pobierz_metadane_graficzne backendPILC msC6).1.map
        (fun m => (m.narzedzie_analizy, m.blad_analizy))) = [("PIL", "")] :=
  ⟨by decide, by decide⟩

/-- C7 (skorygowane): kolejność kolekcji wynikowej to porządek kubełkowy —
kategorie w kolejności pierwszego napotkania, wewnątrz kategorii porządek
odkrycia: obcięcie wyniku do kategorii `k` równa się liście odkrytych
ścieżek odfiltrowanej do kategorii `k` (z pominięciem nieudanych `stat`),
w kolejności odkrycia. Kolejność całości NIE jest porządkiem odkrycia
(kontrprzykład), bo spłaszczenie przebiega po kubełkach rozszerzeń. -/
theorem claim_C7 (pliki_odkryte : List String) (stat : String → Option StatInfo)
    (k : String) :
    (utworz_podstawowe_metadane stat (znajdz_i_posortuj_pliki pliki_odkryte)).filter
        (fun m => decide (m.rozszerzenie = k)) =
      (pliki_odkryte.filter (fun s => decide (kategoriaPliku s = k))).filterMap
        (fun s => (stat s).map (fun si => mkMetadane s k si)) := by
  rw [utworz_podstawowe_metadane, znajdz_i_posortuj_pliki, groupByKey, wszystkiePliki]
  rw [List.flatMap_map, filterMap_flatMap_pom, filter_flatMap_pom]
  have hbody : ∀ kk : String,
      ((((pliki_odkryte.filter (fun x => decide (kategoriaPliku x = kk))).map
          (fun sciezka => (sciezka, kk))).filterMap
            (fun q => (stat q.1).map (fun s => mkMetadane q.1 q.2 s))).filter
          (fun m => decide (m.rozszerzenie = k))) =
        if kk = k then
          (pliki_odkryte.filter (fun s => decide (kategoriaPliku s = kk))).filterMap
            (fun s => (stat s).map (fun si => mkMetadane s kk si))
        else [] := by
    intro kk
    rw [filterMap_map_para]
    by_cases hkk : kk = k
    · rw [if_pos hkk]
      refine List.filter_eq_self.mpr ?_
      intro m hmm
      obtain ⟨s, _, hsm⟩ := List.mem_filterMap.mp hmm
      obtain ⟨si, _, rfl⟩ := Option.map_eq_some.mp hsm
      simpa using hkk
    · rw [if_neg hkk]
      rw [List.filter_eq_nil_iff]
      intro m hmm
      obtain ⟨s, _, hsm⟩ := List.mem_filterMap.mp hmm
      obtain ⟨si, _, rfl⟩ := Option.map_eq_some.mp hsm
      simpa using hkk
  simp only [hbody]
  rw [flatMap_if_eq _ (nodup_kluczeKolejno kategoriaPliku pliki_odkryte) k _ ?_]
  by_cases hk : k ∈ kluczeKolejno kategoriaPliku pliki_odkryte
  · exact Or.inr hk
  · refine Or.inl ?_
    have hpuste : pliki_odkryte.filter (fun s => decide (kategoriaPliku s = k)) = [] := by
      rw [List.filter_eq_nil_iff]
      intro s hsm hc
      exact hk (mem_kluczeKolejno.mpr ⟨s, hsm, by simpa using hc⟩)
    rw [hpuste]
    rfl

/-- Kontrprzykład C7: odkrycie w kolejności ["a.png", "b.jpg", "c.png"]
daje kolekcję końcową w porządku kubełkowym ["a.png", "c.png", "b.jpg"],
różnym od porządku odkrycia. -/
theorem claim_C7_counterexample :
    ((przetwarzaj_folder ["a.png", "b.jpg", "c.png"] statC (fun _ => "")
        backend0 false "").1.pliki.map (fun m => m.sciezka)) =
        ["a.png", "c.png", "b.jpg"] ∧
      ((przetwarzaj_folder ["a.png", "b.jpg", "c.png"] statC (fun _ => "")
          backend0 false "").1.pliki.map (fun m => m.sciezka)) ≠
        ["a.png", "b.jpg", "c.png"] :=
  ⟨by decide, by decide⟩

end TXM

namespace TXM

/-- C8: dla ścieżki, która nie jest katalogiem, potok przerywa przed
jakąkolwiek pracą na plikach — warstwa `texture_runner` zwraca wynik
z `sukces = false`, niepustym komunikatem i bez rekordów, a warstwa
biblioteczna (`przetwarzaj_folder_tekstur`) rzuca `ValueError` z niepustym
komunikatem zanim powstanie procesor. -/
theorem claim_C8 (sciezka_folderu : String)
    (callback : Option (String → ℚ → String → Bool)) (pliki_odkryte : List String)
    (stat : String → Option StatInfo) (hasher : String → String)
    (backend : MetadanePliku → AnalizaWynik) (od : Bool) (sc : String) :
    analizuj_folder_tekstur false sciezka_folderu callback pliki_odkryte stat
        hasher backend od sc =
      ⟨false, "Podany folder nie istnieje: " ++ sciezka_folderu, none⟩ ∧
    ("Podany folder nie istnieje: " ++ sciezka_folderu) ≠ "" ∧
    przetwarzaj_folder_tekstur false sciezka_folderu pliki_odkryte stat hasher
        backend od sc =
      Except.error
        ("Podana ścieżka " ++ sciezka_folderu ++ " nie jest folderem lub nie istnieje.") ∧
    ("Podana ścieżka " ++ sciezka_folderu ++ " nie jest folderem lub nie istnieje.") ≠ "" := by
  refine ⟨rfl, ?_, rfl, ?_⟩
  · intro h
    have hlen := congrArg String.length h
    rw [String.length_append] at hlen
    have h1 : ("Podany folder nie istnieje: " : String).length = 28 := by decide
    have h2 : ("" : String).length = 0 := by decide
    rw [h1, h2] at hlen
    omega
  · intro h
    have hlen := congrArg String.length h
    rw [String.length_append, String.length_append] at hlen
    have h1 : ("Podana ścieżka " : String).length = 15 := by decide
    have h2 : ("" : String).length = 0 := by decide
    have h3 : (" nie jest folderem lub nie istnieje." : String).length = 36 := by decide
    rw [h1, h2, h3] at hlen
    omega

/-- C4 (skorygowane): gdy callback postępu zwróci `False` przy którymkolwiek
zdarzeniu, worker ustawia zatrzask anulowania i po zakończeniu zwraca słownik
`{"sukces": False, "komunikat": ...}` bez żadnych rekordów; jednak już
WYSŁANE przetwarzanie się nie skraca: procesor ignoruje wynik callbacku
(`_raportuj_status` nie odczytuje zwróconej wartości), wykonuje wszystkie
etapy do końca i emituje zdarzenia każdego etapu wraz ze zdarzeniem
"zakończono" — niezależnie od callbacku. -/
theorem claim_C4 (sciezka_folderu : String) (pliki_odkryte : List String)
    (stat : String → Option StatInfo) (hasher : String → String)
    (backend : MetadanePliku → AnalizaWynik) (od : Bool) (sc : String)
    (f : String → ℚ → String → Bool)
    (habort : ∃ st ∈ (przetwarzaj_folder pliki_odkryte stat hasher backend od sc).2,
      f st.etap st.postep st.wiadomosc = false) :
    worker_przetwarzaj_folder (some f) true sciezka_folderu pliki_odkryte stat
        hasher backend od sc =
      Except.ok ⟨some false, "Operacja anulowana przez użytkownika", none⟩ ∧
    ∀ e ∈ (["wyszukiwanie", "metadane_podstawowe", "możliwe_duplikaty", "hash",
            "dokładne_duplikaty", "metadane_graficzne", "zakończono"] : List String),
      ∃ st ∈ (przetwarzaj_folder pliki_odkryte stat hasher backend od sc).2,
        st.etap = e := by
  constructor
  · have hlib : przetwarzaj_folder_tekstur true sciezka_folderu pliki_odkryte stat
        hasher backend od sc =
        Except.ok (przetwarzaj_folder pliki_odkryte stat hasher backend od sc) := rfl
    rw [worker_przetwarzaj_folder, hlib]
    have hcanc : ((przetwarzaj_folder pliki_odkryte stat hasher backend od sc).2.any
        (fun st =>
          match some f with
          | some f' => !(f' st.etap st.postep st.wiadomosc)
          | none => false)) = true := by
      obtain ⟨st, hst, hfalse⟩ := habort
      refine List.any_eq_true.mpr ⟨st, hst, ?_⟩
      simp [hfalse]
    simp only [hcanc]
    rfl
  · intro e he
    have hslad : (przetwarzaj_folder pliki_odkryte stat hasher backend od sc).2 =
        slad_przetwarzania pliki_odkryte stat hasher := rfl
    rw [hslad]
    simp only [List.mem_cons, List.mem_singleton, List.not_mem_nil, or_false] at he
    rcases he with rfl | rfl | rfl | rfl | rfl | rfl | rfl
    · refine ⟨⟨"wyszukiwanie", 0, "Rozpoczęcie wyszukiwania plików...", []⟩, ?_, rfl⟩
      rw [slad_przetwarzania]
      simp
    · refine ⟨⟨"metadane_podstawowe", 0, "Tworzenie podstawowych metadanych...", []⟩, ?_, rfl⟩
      rw [slad_przetwarzania]
      simp
    · refine ⟨⟨"możliwe_duplikaty", 0, "Wykrywanie możliwych duplikatów na podstawie nazwy...", []⟩, ?_, rfl⟩
      rw [slad_przetwarzania]
      simp
    · refine ⟨⟨"hash", 0, "Obliczanie hashy plików...", []⟩, ?_, rfl⟩
      rw [slad_przetwarzania]
      simp
    · refine ⟨⟨"dokładne_duplikaty", 0, "Wykrywanie dokładnych duplikatów...", []⟩, ?_, rfl⟩
      rw [slad_przetwarzania]
      simp
    · refine ⟨⟨"metadane_graficzne", 0, "Pobieranie szczegółowych metadanych graficznych...", []⟩, ?_, rfl⟩
      rw [slad_przetwarzania]
      simp
    · refine ⟨⟨"zakończono", 1, "Przetwarzanie zakończone.", []⟩, ?_, rfl⟩
      rw [slad_przetwarzania]
      simp

/-- Kontrprzykład C4: callback anuluje podczas pierwszego etapu
("wyszukiwanie"), a mimo to w śladzie przebiegu występują zdarzenia
późniejszych etapów ("dokładne_duplikaty") oraz zdarzenie ukończenia
"zakończono" — żadne zadanie etapów po anulowaniu się nie skraca. -/
theorem claim_C4_counterexample :
    (∃ st ∈ (przetwarzaj_folder [] statC (fun _ => "") backend0 false "").2,
        cbW4 st.etap st.postep st.wiadomosc = false) ∧
      (∃ st ∈ (przetwarzaj_folder [] statC (fun _ => "") backend0 false "").2,
        st.etap = "dokładne_duplikaty") ∧
      (∃ st ∈ (przetwarzaj_folder [] statC (fun _ => "") backend0 false "").2,
        st.etap = "zakończono") :=
  ⟨by decide, by decide, by decide⟩

/-- Świadek C4: anulowanie podczas "wyszukiwanie" daje wynik workera
`sukces = False` bez rekordów, a ślad zawiera zdarzenia wszystkich etapów. -/
theorem claim_C4_witness :
    (∃ st ∈ (przetwarzaj_folder [] statC (fun _ => "") backend0 false "").2,
        cbW4 st.etap st.postep st.wiadomosc = false) ∧
      (worker_przetwarzaj_folder (some cbW4) true "/t" [] statC (fun _ => "")
          backend0 false "" =
        Except.ok ⟨some false, "Operacja anulowana przez użytkownika", none⟩ ∧
      ∀ e ∈ (["wyszukiwanie", "metadane_podstawowe", "możliwe_duplikaty", "hash",
              "dokładne_duplikaty", "metadane_graficzne", "zakończono"] : List String),
        ∃ st ∈ (przetwarzaj_folder [] statC (fun _ => "") backend0 false "").2,
          st.etap = e) :=
  ⟨by decide, claim_C4 "/t" [] statC (fun _ => "") backend0 false "" cbW4 (by decide)⟩

end TXM
